import Mathlib

/-!
Verification of the gongmiri spatial-data viewer's parsing engine.

This file gives a shallow embedding, in Lean 4, of the parts of the
repository that the specification's claims are about:

* the GeoJSON-shaped data model (`PropValue`, `Geometry`, `Feature`,
  `FeatureCollectionGeometry`) as used by `src/viewer/App.vue` and
  `src/viewer/workers/parser.ts`;
* quick-mode preview sampling and coordinate rounding
  (`applyQuickPreview`, `roundGeometry`, `roundPosition` in `App.vue`);
* feature-identifier assignment (`ensureFeatureIds` in `App.vue`);
* zip-entry inspection and layer grouping (`inspectZipEntries` in
  `App.vue`, `collectEntries` in `parser.ts`);
* coordinate-system and encoding resolution (`sridToProj4`,
  `createTransformer`, `mapEncoding` in `parser.ts`,
  `parseEncodingLabel` in `App.vue`, the catalog in `utils/srid.ts`);
* progress reporting (`clampPercent` and the progress-emitting
  `parseArchive` variant);
* the per-column statistics builder (`summarizeCollection` in `App.vue`).

JavaScript numbers are modelled as rationals (`ℚ`); byte payloads of
zip entries are modelled by their decoded text (only the text members
`.prj`/`.cpg` are ever decoded by the code under study, the binary
members are routed opaquely); external collaborators (the `proj4`
library, `shpjs`'s `parseShp`) are taken as parameters.
-/

namespace Gongmiri

/-- A decoded scalar attribute value: JS string / number / boolean / null.
JS numbers are modelled as rationals. -/
inductive PropValue where
  | vstr (s : String)
  | vnum (q : ℚ)
  | vbool (b : Bool)
  | vnull
deriving DecidableEq, Repr

/-- A GeoJSON position: a list of numeric components (x, y, optional z). -/
abbrev GPosition := List ℚ

/-- GeoJSON geometry, as produced by the parser and consumed by
`roundGeometry` / `reprojectGeometry` (both switch on exactly these tags). -/
inductive Geometry where
  | point (coordinates : GPosition)
  | multiPoint (coordinates : List GPosition)
  | lineString (coordinates : List GPosition)
  | multiLineString (coordinates : List (List GPosition))
  | polygon (coordinates : List (List GPosition))
  | multiPolygon (coordinates : List (List (List GPosition)))
  | geometryCollection (geometries : List Geometry)
deriving Repr

/-- A feature's attribute row: ordered key/value pairs (a JS object). -/
abbrev Properties := List (String × PropValue)

/-- One GeoJSON feature: `{ id?, geometry, properties }`.  `id` is absent
(`none`) until assigned; `properties` may be `null` (`none`). -/
@[ext]
structure Feature where
  id : Option PropValue
  geometry : Geometry
  properties : Option Properties
deriving Repr

/-- A feature collection plus the non-standard `fileName` tag the worker
attaches to it. -/
structure FeatureCollectionGeometry where
  features : List Feature
  fileName : Option String
deriving Repr

/-! ### Constants (App.vue lines 72-75, 583) -/

def LARGE_FILE_BYTES : Nat := 100 * 1024 * 1024

def LARGE_FEATURE_THRESHOLD : Nat := 100000

def QUICK_SAMPLE_TARGET : Nat := 25000

def QUICK_COORD_DECIMALS : Nat := 5

def UNIQUE_TRACK_LIMIT : Nat := 2000

/-! ### String-keyed maps

JS `Map`s / plain objects keyed by strings are modelled as
insertion-ordered association lists without duplicate keys; the
get-or-create-then-update access pattern of the source becomes
`updateAssoc`. -/

/-- Update the entry at `key` with `f` applied to the current value
(`f none` when absent, appending the new entry at the end, as JS `Map`
insertion order does). -/
def updateAssoc {β : Type} (key : String) (f : Option β → β) :
    List (String × β) → List (String × β)
  | [] => [(key, f none)]
  | p :: ps =>
      if p.1 = key then (key, f (some p.2)) :: ps
      else p :: updateAssoc key f ps

/-- Lookup in an association list (JS `Map.get` / property access). -/
def lookupA {β : Type} (l : List (String × β)) (key : String) : Option β :=
  (l.find? (fun p => p.1 = key)).map (fun p => p.2)

/-! ### Quick-mode rounding (App.vue `roundPosition` / `roundGeometry`) -/

/-- `Number(value.toFixed(5))`: round a coordinate component to 5 decimal
digits (JS `toFixed` rounds to the nearest multiple, halves up). -/
def roundCoord (value : ℚ) : ℚ :=
  (round (value * 100000) : ℚ) / 100000

/-- `roundPosition`: round every numeric component of a position. -/
def roundPosition (position : GPosition) : GPosition :=
  position.map roundCoord

/-- `roundGeometry`: recursively round all coordinates of a geometry,
including the children of a `GeometryCollection`. -/
def roundGeometry : Geometry → Geometry
  | .point coordinates => .point (roundPosition coordinates)
  | .multiPoint coordinates => .multiPoint (coordinates.map roundPosition)
  | .lineString coordinates => .lineString (coordinates.map roundPosition)
  | .multiLineString coordinates =>
      .multiLineString (coordinates.map (fun ring => ring.map roundPosition))
  | .polygon coordinates =>
      .polygon (coordinates.map (fun ring => ring.map roundPosition))
  | .multiPolygon coordinates =>
      .multiPolygon (coordinates.map (fun polygon =>
        polygon.map (fun ring => ring.map roundPosition)))
  | .geometryCollection geometries =>
      .geometryCollection (geometries.attach.map (fun g => roundGeometry g.1))
termination_by g => sizeOf g
decreasing_by
  have := List.sizeOf_lt_of_mem g.2
  simp only [Geometry.geometryCollection.sizeOf_spec]
  omega

/-- `cloneFeatureWithRoundedGeometry`: fresh feature with rounded geometry,
a shallow copy of the properties (`{}` when the input has none), same id. -/
def cloneFeatureWithRoundedGeometry (feature : Feature) : Feature :=
  { id := feature.id
    geometry := roundGeometry feature.geometry
    properties := some (feature.properties.getD []) }

/-- The sampling loop of `applyQuickPreview`
(`for (index = 0; index < length; index += stride)` with an early break
once `QUICK_SAMPLE_TARGET` features are collected). -/
def sampleLoop (features : List Feature) (stride : Nat) (hs : 0 < stride)
    (index : Nat) (sampled : List Feature) : List Feature :=
  if h : index < features.length then
    if QUICK_SAMPLE_TARGET ≤ sampled.length then sampled
    else
      sampleLoop features stride hs (index + stride)
        (sampled ++ [cloneFeatureWithRoundedGeometry (features.get ⟨index, h⟩)])
  else sampled
termination_by features.length - index
decreasing_by
  exact Nat.sub_lt_sub_left h (Nat.lt_add_of_pos_right hs)

/-- `applyQuickPreview`: all features (rounded) when the count is within the
target, else a fixed-stride sample of rounded clones. -/
def applyQuickPreview (collection : FeatureCollectionGeometry) :
    FeatureCollectionGeometry :=
  let features := collection.features
  if features.length ≤ QUICK_SAMPLE_TARGET then
    { features := features.map cloneFeatureWithRoundedGeometry
      fileName := none }
  else
    { features :=
        sampleLoop features (max 1 (features.length / QUICK_SAMPLE_TARGET))
          (Nat.lt_of_lt_of_le Nat.zero_lt_one (le_max_left 1 _)) 0 []
      fileName := none }

/-- `isLargeFeature` classification from `runParse`
(`totalFeatures >= LARGE_FEATURE_THRESHOLD`). -/
def isLargeFeatureCount (totalFeatures : Nat) : Bool :=
  LARGE_FEATURE_THRESHOLD ≤ totalFeatures

/-- All positions occurring in a geometry, in traversal order. -/
def geometryPositions : Geometry → List GPosition
  | .point coordinates => [coordinates]
  | .multiPoint coordinates => coordinates
  | .lineString coordinates => coordinates
  | .multiLineString coordinates => coordinates.flatten
  | .polygon coordinates => coordinates.flatten
  | .multiPolygon coordinates => (coordinates.map List.flatten).flatten
  | .geometryCollection geometries =>
      (geometries.attach.map (fun g => geometryPositions g.1)).flatten
termination_by g => sizeOf g
decreasing_by
  have := List.sizeOf_lt_of_mem g.2
  simp only [Geometry.geometryCollection.sizeOf_spec]
  omega

/-! ### Feature identifiers (App.vue `toFeatureId` / `ensureFeatureIds`) -/

/-- The character for a single decimal digit. -/
def digitChar : Nat → Char
  | 0 => '0' | 1 => '1' | 2 => '2' | 3 => '3' | 4 => '4'
  | 5 => '5' | 6 => '6' | 7 => '7' | 8 => '8' | 9 => '9'
  | _ => '*'

/-- Little-endian decimal digits of `n`, with explicit fuel so that the
definition is structurally recursive (any `fuel ≥ n` is enough). -/
def toDigitsRev (fuel : Nat) (n : Nat) : List Nat :=
  match fuel with
  | 0 => []
  | fuel + 1 => if n = 0 then [] else n % 10 :: toDigitsRev fuel (n / 10)

/-- Decimal representation of a natural number (model of the JS
number-to-string conversion used by template literals and `String`). -/
def natToString (n : Nat) : String :=
  if n = 0 then "0" else String.mk (((toDigitsRev n n).map digitChar).reverse)

/-- The numeric value of a decimal digit character (inverse of
`digitChar`; used only to reason about `natToString`). -/
def charToDigit (c : Char) : Nat :=
  match c with
  | '0' => 0 | '1' => 1 | '2' => 2 | '3' => 3 | '4' => 4
  | '5' => 5 | '6' => 6 | '7' => 7 | '8' => 8 | '9' => 9
  | _ => 0

/-- Value of a little-endian digit list. -/
def ofDigitsRev : List Nat → Nat
  | [] => 0
  | d :: ds => d + 10 * ofDigitsRev ds

/-- Left inverse of `natToString`. -/
def decodeNat (s : String) : Nat :=
  ofDigitsRev (s.data.reverse.map charToDigit)

/-- Decimal representation of an integer. -/
def intToString (z : ℤ) : String :=
  if z < 0 then "-" ++ natToString z.natAbs else natToString z.natAbs

/-- Model of JS `String(q)` for a number.  Integral values print as
integers; the representation of non-integral rationals is a
model-level stand-in (JS prints a decimal expansion). -/
def ratToString (q : ℚ) : String :=
  if q.den = 1 then intToString q.num
  else intToString q.num ++ "/" ++ natToString q.den

/-- Model of JS `String(value)` on a scalar value. -/
def jsStringOf : PropValue → String
  | .vstr s => s
  | .vnum q => ratToString q
  | .vbool true => "true"
  | .vbool false => "false"
  | .vnull => "null"

/-- JS `a ?? b`: `b` exactly when `a` is `null` or `undefined`. -/
def jsCoalesce (a b : Option PropValue) : Option PropValue :=
  match a with
  | none => b
  | some .vnull => b
  | some v => some v

/-- Property access `properties?.[key]` on an attribute row:
`none` models the JS `undefined` of a missing key. -/
def propLookup (properties : Option Properties) (key : String) :
    Option PropValue :=
  match properties with
  | none => none
  | some ps => (ps.find? (fun p => p.1 = key)).map (fun p => p.2)

/-- JS property assignment `obj[key] = v`: replace the entry if the key is
present, append it otherwise. -/
def setProp (ps : Properties) (key : String) (v : PropValue) : Properties :=
  updateAssoc key (fun _ => v) ps

/-- `toFeatureId`: `String(value ?? "")`. -/
def toFeatureId (value : Option PropValue) : String :=
  match value with
  | none => ""
  | some .vnull => ""
  | some v => jsStringOf v

/-- The identifier candidate of `ensureFeatureIds`:
`feature.id ?? properties?.OBJECTID ?? properties?.id ?? properties?.ID
?? feature-<index>`. -/
def idCandidate (feature : Feature) (index : Nat) : Option PropValue :=
  jsCoalesce feature.id
    (jsCoalesce (propLookup feature.properties "OBJECTID")
      (jsCoalesce (propLookup feature.properties "id")
        (jsCoalesce (propLookup feature.properties "ID")
          (some (.vstr ("feature-" ++ natToString index))))))

/-- The per-feature body of `ensureFeatureIds`. -/
def assignFeatureId (feature : Feature) (index : Nat) : Feature :=
  let normalized := toFeatureId (idCandidate feature index)
  let properties :=
    match feature.properties with
    | none => some [("id", PropValue.vstr normalized)]
    | some ps =>
        match propLookup (some ps) "id" with
        | none => some (setProp ps "id" (.vstr normalized))
        | some .vnull => some (setProp ps "id" (.vstr normalized))
        | some _ => some ps
  { feature with id := some (.vstr normalized), properties := properties }

/-- The indexed `forEach` traversal of `ensureFeatureIds`. -/
def ensureLoop (index : Nat) : List Feature → List Feature
  | [] => []
  | feature :: rest => assignFeatureId feature index :: ensureLoop (index + 1) rest

/-- `ensureFeatureIds`: assign every feature its derived identifier and
write it back into the properties when the row has none. -/
def ensureFeatureIds (collection : FeatureCollectionGeometry) :
    FeatureCollectionGeometry :=
  { collection with features := ensureLoop 0 collection.features }

/-! ### Zip entries and layer inspection (App.vue `inspectZipEntries`) -/

/-- One archive entry: its original filename and its payload, modelled by
the text the payload decodes to (only `.prj`/`.cpg` payloads are ever
decoded; binary payloads are routed opaquely). -/
structure ZipEntry where
  filename : String
  text : String
deriving DecidableEq, Repr

/-- ASCII lower-casing of one character (the filenames and labels the
code lower-cases are ASCII). -/
def charToLower (c : Char) : Char :=
  if 65 ≤ c.toNat ∧ c.toNat ≤ 90 then Char.ofNat (c.toNat + 32) else c

/-- `s.toLowerCase()`. -/
def strToLower (s : String) : String :=
  String.mk (s.data.map charToLower)

/-- The whitespace characters stripped by `trim`. -/
def isSpaceChar (c : Char) : Bool :=
  c = ' ' || c = '\t' || c = '\n' || c = '\r'

/-- `s.trim()`: strip leading and trailing whitespace. -/
def jsTrim (s : String) : String :=
  String.mk ((((s.data.dropWhile isSpaceChar).reverse).dropWhile isSpaceChar).reverse)

/-- `filename.replace(/\\/g, "/")`. -/
def normalizeSlashes (s : String) : String :=
  String.mk (s.data.map (fun c => if c = '\\' then '/' else c))

/-- `s.split(sep)` for a one-character separator. -/
def splitOnChar (sep : Char) : List Char → List (List Char)
  | [] => [[]]
  | c :: cs =>
      let rest := splitOnChar sep cs
      if c = sep then [] :: rest
      else
        match rest with
        | [] => [[c]]
        | r :: rs => (c :: r) :: rs

/-- `normalized.split("/").pop()`: the leaf name of a path. -/
def leafOf (filename : String) : String :=
  String.mk ((splitOnChar '/' (normalizeSlashes filename).data).getLastD [])

/-- JS `s.includes(sub)`. -/
def strIncludes (s sub : String) : Bool :=
  (List.range (s.data.length + 1)).any (fun i => sub.data.isPrefixOf (s.data.drop i))

/-- Split a leaf filename at its final dot, requiring a nonempty base:
the regex `^(.+)\.(ext…)$` can only match at the last dot because no
extension alternative contains a dot. -/
def splitAtLastDot (leaf : String) : Option (String × String) :=
  let parts := splitOnChar '.' leaf.data
  match parts with
  | [] => none
  | [_] => none
  | _ =>
      let base := String.mk (List.intercalate ['.'] parts.dropLast)
      let ext := String.mk (parts.getLastD [])
      if base = "" then none else some (base, ext)

/-- Match `^(.+)\.(ext…)$/i` against a leaf filename for a fixed list of
lowercase extensions; returns the base name and the lowercased extension. -/
def matchLayerFile (exts : List String) (leaf : String) :
    Option (String × String) :=
  match splitAtLastDot leaf with
  | none => none
  | some (base, ext) =>
      if strToLower ext ∈ exts then some (base, strToLower ext) else none

/-- The extension list of `inspectZipEntries`. -/
def inspectExts : List String :=
  ["shp", "dbf", "shx", "prj", "cpg", "qix", "sbn", "sbx"]

/-- The caller-facing encoding choice (`EncodingOption`). -/
inductive EncodingOption where
  | utf8
  | euckr
  | cp949
deriving DecidableEq, Repr

/-- `parseEncodingLabel`: map a free-text `.cpg` label to a canonical
encoding tag, or `none` when unrecognized. -/
def parseEncodingLabel (label : String) : Option EncodingOption :=
  let normalized := strToLower (jsTrim label)
  if strIncludes normalized "utf-8" || strIncludes normalized "utf8" then
    some .utf8
  else if strIncludes normalized "euc-kr" || strIncludes normalized "euckr" ||
      strIncludes normalized "ksc" || strIncludes normalized "5601" then
    some .euckr
  else if strIncludes normalized "949" || strIncludes normalized "ms949" ||
      strIncludes normalized "uhc" then
    some .cp949
  else none

/-- The caller-default update of `processFile`
(`if (inspection.detectedEncoding) encoding.value = inspection.detectedEncoding`):
a recognized detected label replaces the current default, an absent one
leaves it. -/
def resolveDefaultEncoding (detected : Option EncodingOption)
    (current : EncodingOption) : EncodingOption :=
  detected.getD current

/-- Per-layer member booleans tracked by the inspection. -/
structure ZipLayerStatus where
  name : String
  hasShp : Bool := false
  hasDbf : Bool := false
  hasShx : Bool := false
  hasPrj : Bool := false
  hasCpg : Bool := false
  hasQix : Bool := false
  hasSbn : Bool := false
  hasSbx : Bool := false
  missingEssential : List String := []
deriving DecidableEq, Repr

/-- The `mark` helper of `inspectZipEntries`: flag one extension on the
layer keyed by its base name, creating the layer on first sight. -/
def markLayer (layers : List (String × ZipLayerStatus))
    (layerName ext : String) : List (String × ZipLayerStatus) :=
  updateAssoc layerName
    (fun found =>
      let existing := found.getD { name := layerName }
      match ext with
      | "shp" => { existing with hasShp := true }
      | "dbf" => { existing with hasDbf := true }
      | "shx" => { existing with hasShx := true }
      | "prj" => { existing with hasPrj := true }
      | "cpg" => { existing with hasCpg := true }
      | "qix" => { existing with hasQix := true }
      | "sbn" => { existing with hasSbn := true }
      | "sbx" => { existing with hasSbx := true }
      | _ => existing)
    layers

/-- The inspection result (`ZipInspection`). -/
structure ZipInspection where
  layers : List ZipLayerStatus
  hasValidLayer : Bool
  hasCpg : Bool
  hasPrj : Bool
  detectedEncoding : Option EncodingOption
  detectedSridCode : Option Nat
  prjText : Option String
deriving DecidableEq, Repr

/-- Mutable state of the inspection scan. -/
structure InspectState where
  layers : List (String × ZipLayerStatus) := []
  hasCpg : Bool := false
  hasPrj : Bool := false
  detectedEncoding : Option EncodingOption := none
  detectedSridCode : Option Nat := none
  prjText : Option String := none

/-- One iteration of the entry scan of `inspectZipEntries`.
`detectSrid` stands for `detectSridFromPrj` (utils/srid.ts), which none
of the verified claims depend on. -/
def inspectStep (detectSrid : String → Option Nat) (st : InspectState)
    (entry : ZipEntry) : InspectState :=
  let leaf := leafOf entry.filename
  if leaf = "" then st
  else
    match matchLayerFile inspectExts leaf with
    | none => st
    | some (rawName, extLower) =>
        let st := { st with layers := markLayer st.layers rawName extLower }
        let st :=
          if extLower = "cpg" then
            let st := { st with hasCpg := true }
            if st.detectedEncoding = none then
              { st with detectedEncoding := parseEncodingLabel (jsTrim entry.text) }
            else st
          else st
        if extLower = "prj" then
          let st := { st with hasPrj := true }
          if st.prjText = none || st.prjText = some "" then
            { st with
              prjText := some (jsTrim entry.text)
              detectedSridCode := detectSrid (jsTrim entry.text) }
          else st
        else st

/-- `inspectZipEntries`: scan all entries, then finalize the per-layer
`missingEssential` lists and the archive-level `hasValidLayer` flag. -/
def inspectZipEntries (detectSrid : String → Option Nat)
    (entries : List ZipEntry) : ZipInspection :=
  let st := entries.foldl (inspectStep detectSrid) {}
  let finalized := st.layers.map (fun p =>
    let layer := p.2
    let missing :=
      (if layer.hasShp then [] else [".shp"]) ++
      (if layer.hasDbf then [] else [".dbf"]) ++
      (if layer.hasShx then [] else [".shx"])
    { layer with missingEssential := missing })
  { layers := finalized
    hasValidLayer :=
      finalized.any (fun layer => layer.hasShp && layer.hasDbf && layer.hasShx)
    hasCpg := st.hasCpg
    hasPrj := st.hasPrj
    detectedEncoding := st.detectedEncoding
    detectedSridCode := st.detectedSridCode
    prjText := st.prjText }

/-! ### `processFile` control flow (App.vue lines 492-551) -/

/-- Where a `processFile` call ends up before any worker parse returns. -/
inductive ProcessOutcome where
  | invalidFileName
  | noValidLayer
  | sridSelectionRequired
  | largeFilePrompt
  | parseStarted
deriving DecidableEq, Repr

/-- Outcome of `processFile`: which branch returned, the error message
set (empty when none), and whether `runParse` was reached (before it,
`result` stays `null`). -/
structure ProcessFileResult where
  outcome : ProcessOutcome
  errorMessage : String
  parseReached : Bool
deriving DecidableEq, Repr

/-- `/\.zip$/i.test(name)`. -/
def isZipName (fileName : String) : Bool :=
  List.isSuffixOf ".zip".data (strToLower fileName).data

def NO_VALID_LAYER_MESSAGE : String :=
  "필수 구성(SHP/DBF/SHX)이 포함된 레이어를 찾을 수 없습니다."

/-- The decision sequence of `processFile`: reject non-zip names, inspect
the entries, fail when no layer has the SHP/DBF/SHX triad, ask for an
SRID when neither a `.prj` nor a detected code exists, prompt on large
files, and only then start the parse. -/
def processFile (detectSrid : String → Option Nat) (fileName : String)
    (fileBytes : Nat) (entries : List ZipEntry) : ProcessFileResult :=
  if ¬ isZipName fileName then
    { outcome := .invalidFileName
      errorMessage := "ZIP 파일을 올려주세요."
      parseReached := false }
  else
    let inspection := inspectZipEntries detectSrid entries
    if ¬ inspection.hasValidLayer then
      { outcome := .noValidLayer
        errorMessage := NO_VALID_LAYER_MESSAGE
        parseReached := false }
    else if ¬ inspection.hasPrj ∧ inspection.detectedSridCode = none then
      { outcome := .sridSelectionRequired, errorMessage := "", parseReached := false }
    else if LARGE_FILE_BYTES ≤ fileBytes then
      { outcome := .largeFilePrompt, errorMessage := "", parseReached := false }
    else
      { outcome := .parseStarted, errorMessage := "", parseReached := true }

/-! ### Worker layer grouping (parser.ts `collectEntries`) -/

/-- A grouped layer: opaque `.shp`/`.dbf` payloads (kept as the entry
text standing for the cloned byte buffer) and decoded, trimmed
`.prj`/`.cpg` text. -/
structure LayerEntry where
  shp : Option String := none
  dbf : Option String := none
  prj : Option String := none
  cpg : Option String := none
  fileName : String
deriving DecidableEq, Repr

/-- The extension list of the worker's `collectEntries`. -/
def workerExts : List String := ["shp", "dbf", "shx", "prj", "cpg"]

/-- Route one matched entry into its layer (the `switch` of
`collectEntries`); `.shx` entries create the layer but set no field. -/
def routeEntry (layer : LayerEntry) (ext : String) (text : String) :
    LayerEntry :=
  match ext with
  | "shp" => { layer with shp := some text }
  | "dbf" => { layer with dbf := some text }
  | "prj" => { layer with prj := some (jsTrim text) }
  | "cpg" => { layer with cpg := some (jsTrim text) }
  | _ => layer

/-- One iteration of the `collectEntries` scan. -/
def collectStep (files : List (String × LayerEntry)) (entry : ZipEntry) :
    List (String × LayerEntry) :=
  let leaf := leafOf entry.filename
  if leaf = "" then files
  else
    match matchLayerFile workerExts leaf with
    | none => files
    | some (baseName, extension) =>
        updateAssoc baseName
          (fun found =>
            routeEntry (found.getD { fileName := baseName }) extension entry.text)
          files

/-- `collectEntries`: group all matching archive entries into layers keyed
by base filename (insertion-ordered, later entries overwrite fields). -/
def collectEntries (entries : List ZipEntry) : List (String × LayerEntry) :=
  entries.foldl collectStep []

/-- The layer/extension an entry is routed to, if any. -/
def entryTarget (exts : List String) (entry : ZipEntry) :
    Option (String × String) :=
  let leaf := leafOf entry.filename
  if leaf = "" then none else matchLayerFile exts leaf

/-- The trimmed text of the last entry routed to `(base, ext)`. -/
def lastLayerText (entries : List ZipEntry) (base ext : String) :
    Option String :=
  entries.foldl
    (fun acc entry =>
      if entryTarget workerExts entry = some (base, ext) then
        some (jsTrim entry.text)
      else acc)
    none

/-! ### Coordinate-system catalog and transform (utils/srid.ts, parser.ts) -/

/-- One catalog entry (`SridOption`). -/
structure SridOption where
  code : Nat
  name : String
  description : String
  proj4 : String
deriving DecidableEq, Repr

/-- The fixed coordinate-system catalog (`SRID_OPTIONS`). -/
def SRID_OPTIONS : List SridOption :=
  [ { code := 4326
      name := "EPSG:4326"
      description := "WGS 84 (경위도)"
      proj4 := "+proj=longlat +datum=WGS84 +no_defs +type=crs" },
    { code := 3857
      name := "EPSG:3857"
      description := "WGS 84 / Pseudo-Mercator"
      proj4 := "+proj=merc +lon_0=0 +k=1 +x_0=0 +y_0=0 +datum=WGS84 +units=m +no_defs +type=crs" },
    { code := 5179
      name := "EPSG:5179"
      description := "Korea 2000 / Unified CS"
      proj4 := "+proj=tmerc +lat_0=38 +lon_0=127 +k=1 +x_0=200000 +y_0=600000 +ellps=GRS80 +units=m +no_defs +type=crs" },
    { code := 5186
      name := "EPSG:5186"
      description := "Korea 2000 / Central Belt 2010"
      proj4 := "+proj=tmerc +lat_0=38 +lon_0=127 +k=1 +x_0=200000 +y_0=500000 +ellps=GRS80 +units=m +no_defs +type=crs" } ]

/-- `sridToProj4`: the catalog definition string of an override code. -/
def sridToProj4 (srid : Option Nat) : Option String :=
  match srid with
  | none => none
  | some code => (SRID_OPTIONS.find? (fun item => item.code = code)).map
      (fun item => item.proj4)

/-- `proj4.WGS84`, the fixed geographic longitude/latitude target of every
transform (a constant of the external proj4 library). -/
def WGS84 : String := "+proj=longlat +datum=WGS84 +no_defs"

/-- The position function returned by `createTransformer`: convert the
first two components through the proj4 converter and carry a third one
through unchanged. -/
def transformWith (converter : ℚ × ℚ → ℚ × ℚ) (position : GPosition) :
    GPosition :=
  let lon := position.getD 0 0
  let lat := position.getD 1 0
  let xy := converter (lon, lat)
  if 2 < position.length then [xy.1, xy.2, position.getD 2 0]
  else [xy.1, xy.2]

/-- `createTransformer`: when an override definition exists, build the
forward transform from it to `WGS84` using the external proj4 library
(`proj4lib`). -/
def createTransformer (proj4lib : String → String → (ℚ × ℚ → ℚ × ℚ))
    (srid : Option Nat) : Option (GPosition → GPosition) :=
  match sridToProj4 srid with
  | none => none
  | some definition =>
      some (transformWith (proj4lib definition WGS84))

/-- `reprojectGeometry`: apply a position transform to every coordinate,
recursing through `GeometryCollection` children. -/
def reprojectGeometry (transform : GPosition → GPosition) :
    Geometry → Geometry
  | .point coordinates => .point (transform coordinates)
  | .multiPoint coordinates => .multiPoint (coordinates.map transform)
  | .lineString coordinates => .lineString (coordinates.map transform)
  | .multiLineString coordinates =>
      .multiLineString (coordinates.map (fun ring => ring.map transform))
  | .polygon coordinates =>
      .polygon (coordinates.map (fun ring => ring.map transform))
  | .multiPolygon coordinates =>
      .multiPolygon (coordinates.map (fun polygon =>
        polygon.map (fun ring => ring.map transform)))
  | .geometryCollection geometries =>
      .geometryCollection
        (geometries.attach.map (fun g => reprojectGeometry transform g.1))
termination_by g => sizeOf g
decreasing_by
  have := List.sizeOf_lt_of_mem g.2
  simp only [Geometry.geometryCollection.sizeOf_spec]
  omega

/-- `reprojectCollection`: transform every feature's geometry in place. -/
def reprojectCollection (transform : GPosition → GPosition)
    (features : List Feature) : List Feature :=
  features.map (fun feature =>
    { feature with geometry := reprojectGeometry transform feature.geometry })

/-! ### Worker encoding resolution (parser.ts `mapEncoding`, lines 115-127) -/

/-- `mapEncoding`: the label of the caller-supplied default encoding. -/
def mapEncoding (encoding : EncodingOption) : String :=
  match encoding with
  | .euckr => "euc-kr"
  | .cp949 => "cp949"
  | .utf8 => "utf-8"

/-- The encoding label handed to the external `parseDbf` for a layer:
`layer.cpg ? layer.cpg : (layer.cpg?.trim() || mapEncoding(encoding))`.
A nonempty `.cpg` text is passed through verbatim; otherwise the mapped
caller default. -/
def dbfEncodingLabel (cpg : Option String) (encoding : EncodingOption) :
    String :=
  let encodingLabel :=
    match cpg with
    | some s => if jsTrim s = "" then mapEncoding encoding else jsTrim s
    | none => mapEncoding encoding
  match cpg with
  | some s => if s = "" then encodingLabel else s
  | none => encodingLabel

/-! ### Per-layer parse pipeline (parser.ts `parseArchive`, lines 106-143) -/

/-- The projection text handed to the external `parseShp` for a layer:
`projOverride ?? layer.prj`. -/
def layerPrjText (srid : Option Nat) (layer : LayerEntry) : Option String :=
  match sridToProj4 srid with
  | some override => some override
  | none => layer.prj

/-- The feature list produced for one layer: the external `parseShp`
output (given the selected projection text), reprojected by the
override transform when one exists.  `parseShpLayer` stands for the
external `parseShp`/`parseDbf`/`combine` composition on this layer's
buffers, as a function of the projection text it is given. -/
def layerFeatures (parseShpLayer : Option String → List Feature)
    (proj4lib : String → String → (ℚ × ℚ → ℚ × ℚ)) (srid : Option Nat)
    (layer : LayerEntry) : List Feature :=
  let prjText := layerPrjText srid layer
  let geometries := parseShpLayer prjText
  match createTransformer proj4lib srid with
  | some transform => reprojectCollection transform geometries
  | none => geometries

/-! ### Progress reporting (the progress-emitting worker variant:
`clampPercent` and `parseArchive` with `reportProgress`) -/

/-- `clampPercent`: `Math.min(99, Math.max(1, Math.round(value)))`
(JS `Math.round` rounds to the nearest integer, halves towards `+∞`,
exactly Mathlib's `round`). -/
def clampPercent (value : ℚ) : ℤ :=
  min 99 (max 1 (round value))

/-- A message posted by the worker, tagged with its job id.  The success
payload (the feature collection) is irrelevant to the claims about
message ordering and elided. -/
inductive WorkerMsg where
  | progress (id : Nat) (label : String) (percent : ℤ)
  | success (id : Nat)
  | error (id : Nat) (message : String)
deriving DecidableEq, Repr

/-- The per-layer progress loop: each layer emits a start milestone at
`20 + perLayer * index` and a completion milestone at
`20 + perLayer * (index + 1)` around its parse. -/
def layerLoop (id : Nat) (layerCount : Nat) (perLayer : ℚ) (index : Nat) :
    List WorkerMsg :=
  if index < layerCount then
    .progress id
        ("레이어 " ++ natToString (index + 1) ++ "/" ++ natToString layerCount
          ++ " 파싱 중")
        (clampPercent (20 + perLayer * (index : ℚ))) ::
    .progress id
        ("레이어 " ++ natToString (index + 1) ++ "/" ++ natToString layerCount
          ++ " 완료")
        (clampPercent (20 + perLayer * ((index + 1 : Nat) : ℚ))) ::
    layerLoop id layerCount perLayer (index + 1)
  else []
termination_by layerCount - index

/-- `Object.values(entries).filter((layer) => layer.shp)`: the layers the
worker parses. -/
def workerLayers (entries : List ZipEntry) : List LayerEntry :=
  ((collectEntries entries).map (fun p => p.2)).filter
    (fun layer => layer.shp.isSome)

/-- `layers.length ? progressSpan / layers.length : progressSpan` with
`progressSpan = 65`. -/
def perLayerSpan (entries : List ZipEntry) : ℚ :=
  if (workerLayers entries).length = 0 then 65
  else 65 / ((workerLayers entries).length : ℚ)

/-- The full message sequence of one parse job: the handler's initial
milestone, `parseArchive`'s milestones (`12`, the layer loop, `90`),
and the terminal success — or the terminal error when no layer has a
`.shp` member.  (The per-layer `if (!shpBuffer) continue` of the source
is unreachable: the loop runs over layers filtered to have `shp`.) -/
def jobMessages (id : Nat) (entries : List ZipEntry) : List WorkerMsg :=
  WorkerMsg.progress id "ZIP 해제 중" (clampPercent 5) ::
  WorkerMsg.progress id "레이어 구성 중" (clampPercent 12) ::
  (if (workerLayers entries).length = 0 then
    [.error id "SHP 레이어를 찾지 못했습니다."]
  else
    layerLoop id (workerLayers entries).length (perLayerSpan entries) 0 ++
    [.progress id "GeoJSON 정리 중" (clampPercent 90), .success id])

/-- The job id a message is tagged with. -/
def msgId : WorkerMsg → Nat
  | .progress id _ _ => id
  | .success id => id
  | .error id _ => id

/-- The percent a progress message carries. -/
def msgPercent : WorkerMsg → Option ℤ
  | .progress _ _ percent => some percent
  | _ => none

/-- Whether a message is a progress milestone. -/
def isProgressMsg : WorkerMsg → Bool
  | .progress _ _ _ => true
  | _ => false

/-- Whether a message is terminal (success or error). -/
def isTerminalMsg : WorkerMsg → Bool
  | .success _ => true
  | .error _ _ => true
  | _ => false

/-! ### Column statistics (App.vue `summarizeCollection`) -/

/-- `ColumnStat["dataType"]`. -/
inductive ColumnDataType where
  | string
  | number
  | boolean
  | mixed
  | nullType
  | other
deriving DecidableEq, Repr

/-- `detectValueType` (every model number is finite, so the
`"other"` branch for non-finite numbers cannot fire here). -/
def detectValueType : PropValue → ColumnDataType
  | .vnull => .nullType
  | .vnum _ => .number
  | .vstr _ => .string
  | .vbool _ => .boolean

/-- Running numeric min/max/sum/count. -/
structure NumericAgg where
  min : ℚ
  max : ℚ
  sum : ℚ
  count : Nat
deriving DecidableEq, Repr

/-- The per-column accumulator of `summarizeCollection`.  The JS `Set`s
are modelled as insertion-ordered duplicate-free lists. -/
structure ColumnAggregate where
  filled : Nat := 0
  empty : Nat := 0
  samples : List String := []
  observedTypes : List ColumnDataType := []
  uniqueValues : List String := []
  uniqueOverflow : Bool := false
  numeric : Option NumericAgg := none
deriving DecidableEq, Repr

/-- JS `Set.add`. -/
def setAdd [DecidableEq α] (s : List α) (x : α) : List α :=
  if x ∈ s then s else s ++ [x]

/-- `value === null || value === undefined || (string && trim = "")`. -/
def isEmptyValue : PropValue → Bool
  | .vnull => true
  | .vstr s => jsTrim s = ""
  | _ => false

/-- The key a value contributes to the unique-value `Set`
(`String(value)`; the `JSON.stringify` branch for objects cannot fire
on scalar rows). -/
def uniqueKeyOf (value : PropValue) : String :=
  jsStringOf value

/-- The body of `registerValue` acting on one column's accumulator. -/
def updateAggregate (aggregate : ColumnAggregate) (value : PropValue) :
    ColumnAggregate :=
  if isEmptyValue value then
    { aggregate with
      empty := aggregate.empty + 1
      observedTypes := setAdd aggregate.observedTypes .nullType }
  else
    let valueType := detectValueType value
    let aggregate :=
      { aggregate with
        filled := aggregate.filled + 1
        observedTypes := setAdd aggregate.observedTypes valueType
        samples :=
          if aggregate.samples.length < 3 then
            aggregate.samples ++ [jsStringOf value]
          else aggregate.samples }
    let aggregate :=
      if aggregate.uniqueOverflow then aggregate
      else
        let uniqueValues := setAdd aggregate.uniqueValues (uniqueKeyOf value)
        { aggregate with
          uniqueValues := uniqueValues
          uniqueOverflow := UNIQUE_TRACK_LIMIT < uniqueValues.length }
    match value with
    | .vnum numericValue =>
        match aggregate.numeric with
        | none =>
            { aggregate with
              numeric := some
                { min := numericValue, max := numericValue
                  sum := numericValue, count := 1 } }
        | some numeric =>
            { aggregate with
              numeric := some
                { min := Min.min numeric.min numericValue
                  max := Max.max numeric.max numericValue
                  sum := numeric.sum + numericValue
                  count := numeric.count + 1 } }
    | _ => aggregate

/-- `registerValue`: fetch or create the column accumulator, then feed it
the value. -/
def registerValue (aggregates : List (String × ColumnAggregate))
    (name : String) (value : PropValue) :
    List (String × ColumnAggregate) :=
  updateAssoc name (fun found => updateAggregate (found.getD {}) value) aggregates

/-- The feature/property double loop feeding `registerValue`. -/
def collectAggregates (features : List Feature) :
    List (String × ColumnAggregate) :=
  features.foldl
    (fun aggregates feature =>
      (feature.properties.getD []).foldl
        (fun aggregates p => registerValue aggregates p.1 p.2) aggregates)
    []

/-- One reported column (`ColumnStat`). -/
structure ColumnStat where
  name : String
  filled : Nat
  empty : Nat
  fillRate : ℚ
  samples : List String
  dataType : ColumnDataType
  uniqueCount : Option Nat
  uniqueRatio : Option ℚ
  numericSummary : Option (ℚ × ℚ × ℚ)
deriving DecidableEq, Repr

/-- Build one `ColumnStat` from a finished accumulator
(`featureCount` is `features.length`). -/
def mkColumnStat (featureCount : Nat) (name : String)
    (aggregate : ColumnAggregate) : ColumnStat :=
  let filled := aggregate.filled
  let fillRate : ℚ :=
    if featureCount = 0 then 0 else (filled : ℚ) / featureCount * 100
  let observed := aggregate.observedTypes.filter (fun t => t ≠ .nullType)
  let dataType :=
    if filled = 0 then ColumnDataType.nullType
    else match observed with
      | [t] => t
      | [] => ColumnDataType.nullType
      | _ => ColumnDataType.mixed
  let uniqueCount : Option Nat :=
    if aggregate.uniqueOverflow then none else some aggregate.uniqueValues.length
  let uniqueRatio : Option ℚ :=
    match uniqueCount with
    | some count => if featureCount = 0 then none else some ((count : ℚ) / featureCount)
    | none => none
  let numericSummary :=
    match aggregate.numeric with
    | some numeric =>
        if numeric.count = 0 then none
        else some (numeric.min, numeric.max, numeric.sum / numeric.count)
    | none => none
  { name := name
    filled := filled
    empty := aggregate.empty
    fillRate := fillRate
    samples := aggregate.samples
    dataType := dataType
    uniqueCount := uniqueCount
    uniqueRatio := uniqueRatio
    numericSummary := numericSummary }

/-- Insertion sort by ascending fill rate (model of
`columns.sort((a, b) => a.fillRate - b.fillRate)`). -/
def insertByFillRate (column : ColumnStat) :
    List ColumnStat → List ColumnStat
  | [] => [column]
  | c :: cs =>
      if column.fillRate ≤ c.fillRate then column :: c :: cs
      else c :: insertByFillRate column cs

def sortByFillRate : List ColumnStat → List ColumnStat
  | [] => []
  | c :: cs => insertByFillRate c (sortByFillRate cs)

/-- All values carried by a given column across the collection, in
iteration order. -/
def columnValues (features : List Feature) (name : String) : List PropValue :=
  ((features.flatMap (fun ft => ft.properties.getD [])).filter
    (fun p => p.1 = name)).map (fun p => p.2)

/-- The distinct unique-keys of the non-empty values, in first-seen order
(what an unbounded version of the unique-value `Set` would hold). -/
def distinctKeys (values : List PropValue) : List String :=
  values.foldl
    (fun acc v => if isEmptyValue v then acc else setAdd acc (uniqueKeyOf v)) []

/-- The summary result (`ViewerResult`), restricted to the fields the
claims mention. -/
structure ViewerResult where
  fileName : String
  featureCount : Nat
  columns : List ColumnStat
deriving DecidableEq, Repr

/-- `summarizeCollection`: aggregate all property values, derive one
`ColumnStat` per column, and sort columns by ascending fill rate. -/
def summarizeCollection (collection : FeatureCollectionGeometry)
    (fileName : String) : ViewerResult :=
  let features := collection.features
  let aggregates := collectAggregates features
  let columns :=
    aggregates.map (fun p => mkColumnStat features.length p.1 p.2)
  { fileName := fileName
    featureCount := features.length
    columns := sortByFillRate columns }

/-! ### Specification helpers for the sampling loop -/

/-- A placeholder feature for total indexing in specifications. -/
def dummyFeature : Feature :=
  { id := none, geometry := .point [], properties := none }

/-- The index sequence `index, index + stride, …` below `n`. -/
def strideIndices (n stride : Nat) (hs : 0 < stride) (index : Nat) : List Nat :=
  if index < n then index :: strideIndices n stride hs (index + stride) else []
termination_by n - index
decreasing_by
  rename_i h
  exact Nat.sub_lt_sub_left h (Nat.lt_add_of_pos_right hs)

/-! ### Concrete example inputs used by counterexamples and witnesses -/

/-- A feature whose row carries an explicit `OBJECTID` of `7`. -/
def objFeature : Feature :=
  { id := none, geometry := .point [], properties := some [("OBJECTID", .vnum 7)] }

/-- Two features with the same `OBJECTID` row value. -/
def dupObjCollection : FeatureCollectionGeometry :=
  { features := [objFeature, objFeature], fileName := none }

/-- A feature with no id source at all. -/
def plainFeature : Feature :=
  { id := none, geometry := .point [], properties := none }

/-- One plain feature. -/
def singleCollection : FeatureCollectionGeometry :=
  { features := [plainFeature], fileName := none }

/-- Two plain features. -/
def twoPlainCollection : FeatureCollectionGeometry :=
  { features := [plainFeature, plainFeature], fileName := none }

/-- A feature with an id, a point geometry and a property, for the
quick-preview witnesses. -/
def quickWitnessFeature : Feature :=
  { id := some (.vstr "a")
    geometry := .point [1, 2]
    properties := some [("k", .vnum 3)] }

/-- A one-feature collection for the quick-preview witnesses. -/
def quickWitnessCollection : FeatureCollectionGeometry :=
  { features := [quickWitnessFeature], fileName := none }

/-- A 150,000-feature collection (concrete scenario D). -/
def largeCollection : FeatureCollectionGeometry :=
  { features := List.replicate 150000 plainFeature, fileName := none }

/-- A feature carrying one string column, for the statistics witness. -/
def statsFeature : Feature :=
  { id := none, geometry := .point [], properties := some [("n", .vstr "x")] }

/-- The one-feature collection for the statistics witness. -/
def statsCollection : FeatureCollectionGeometry :=
  { features := [statsFeature], fileName := none }

/-- The column stat the statistics witness inspects. -/
def statsColumn : ColumnStat :=
  mkColumnStat 1 "n" (updateAggregate {} (.vstr "x"))

/-! ## Association-list lemmas -/

theorem lookupA_nil {β : Type} (key : String) : lookupA ([] : List (String × β)) key = none := rfl

theorem lookupA_cons {β : Type} (p : String × β) (ps : List (String × β))
    (key : String) :
    lookupA (p :: ps) key = if p.1 = key then some p.2 else lookupA ps key := by
  by_cases h : p.1 = key <;> simp [lookupA, List.find?_cons, h]

theorem lookupA_updateAssoc_self {β : Type} (key : String) (f : Option β → β)
    (l : List (String × β)) :
    lookupA (updateAssoc key f l) key = some (f (lookupA l key)) := by
  induction l with
  | nil => simp [updateAssoc, lookupA_cons, lookupA_nil]
  | cons p ps ih =>
      by_cases h : p.1 = key
      · simp [updateAssoc, h, lookupA_cons]
      · simp [updateAssoc, h, lookupA_cons, ih]

theorem lookupA_updateAssoc_other {β : Type} (key key' : String)
    (hne : key' ≠ key) (f : Option β → β) (l : List (String × β)) :
    lookupA (updateAssoc key f l) key' = lookupA l key' := by
  induction l with
  | nil => simp [updateAssoc, lookupA_cons, lookupA_nil, Ne.symm hne]
  | cons p ps ih =>
      by_cases h : p.1 = key
      · subst h
        simp [updateAssoc, lookupA_cons, Ne.symm hne, hne]
      · simp [updateAssoc, h, lookupA_cons, ih]

/-! ## C1: missing-triad archives fail before the parse stage -/

/-- C1.  If no layer of the archive contains all three essential members
`.shp`, `.dbf` and `.shx`, then `processFile` returns through the
no-valid-layer branch: the no-valid-layer error message is surfaced,
`runParse` is never reached, and no feature collection is produced. -/
theorem noValidLayer_fails_before_parse
    (detectSrid : String → Option Nat) (fileName : String) (fileBytes : Nat)
    (entries : List ZipEntry)
    (hzip : isZipName fileName = true)
    (hnone : ∀ layer ∈ (inspectZipEntries detectSrid entries).layers,
      ¬(layer.hasShp = true ∧ layer.hasDbf = true ∧ layer.hasShx = true)) :
    processFile detectSrid fileName fileBytes entries =
      { outcome := .noValidLayer
        errorMessage := NO_VALID_LAYER_MESSAGE
        parseReached := false } := by
  have hvalid : (inspectZipEntries detectSrid entries).hasValidLayer = false := by
    rw [inspectZipEntries] at hnone ⊢
    simp only [List.any_eq_false]
    intro layer hmem
    have := hnone layer hmem
    simp only [Bool.and_eq_true] at *
    tauto
  rw [processFile, hzip]
  simp only [Bool.not_eq_true, ite_true, Bool.true_eq_false, not_true_eq_false]
  rw [hvalid]
  simp

/-- C1 witness: a single-layer archive missing its `.shx` fails with the
no-valid-layer error and never reaches the parse stage. -/
theorem noValidLayer_fails_before_parse_witness :
    processFile (fun _ => none) "data.zip" 0
      [{ filename := "only.shp", text := "" },
       { filename := "only.dbf", text := "" }] =
      { outcome := .noValidLayer
        errorMessage := NO_VALID_LAYER_MESSAGE
        parseReached := false } :=
  noValidLayer_fails_before_parse (fun _ => none) "data.zip" 0 _
    (by decide) (by decide)

/-! ## C7: duplicate `.prj`/`.cpg` entries for one layer -/

theorem collectStep_eq (files : List (String × LayerEntry)) (entry : ZipEntry) :
    collectStep files entry =
      match entryTarget workerExts entry with
      | none => files
      | some (baseName, extension) =>
          updateAssoc baseName
            (fun found =>
              routeEntry (found.getD { fileName := baseName }) extension entry.text)
            files := by
  rw [collectStep, entryTarget]
  by_cases h : leafOf entry.filename = ""
  · simp [h]
  · simp only [h, if_false, if_neg h]

theorem routeEntry_prj (layer : LayerEntry) (ext text : String) :
    (routeEntry layer ext text).prj =
      if ext = "prj" then some (jsTrim text) else layer.prj := by
  by_cases h : ext = "prj"
  · subst h
    simp [routeEntry]
  · rw [if_neg h, routeEntry.eq_def]
    split <;> simp_all

theorem routeEntry_cpg (layer : LayerEntry) (ext text : String) :
    (routeEntry layer ext text).cpg =
      if ext = "cpg" then some (jsTrim text) else layer.cpg := by
  by_cases h : ext = "cpg"
  · subst h
    simp [routeEntry]
  · rw [if_neg h, routeEntry.eq_def]
    split <;> simp_all

/-- Generic last-write characterization of one text field of a layer
across the `collectEntries` fold. -/
theorem collect_text_aux (proj : LayerEntry → Option String) (ext : String)
    (hroute : ∀ layer e text,
      proj (routeEntry layer e text) =
        if e = ext then some (jsTrim text) else proj layer)
    (hdefault : ∀ base, proj { fileName := base } = none) :
    ∀ (entries : List ZipEntry) (files : List (String × LayerEntry))
      (base : String) (layer : LayerEntry),
      lookupA (entries.foldl collectStep files) base = some layer →
      proj layer =
        entries.foldl
          (fun acc entry =>
            if entryTarget workerExts entry = some (base, ext) then
              some (jsTrim entry.text)
            else acc)
          (((lookupA files base).map proj).getD none) := by
  intro entries
  induction entries with
  | nil =>
      intro files base layer h
      simp only [List.foldl_nil] at h ⊢
      rw [h]
      rfl
  | cons entry rest ih =>
      intro files base layer h
      simp only [List.foldl_cons] at h ⊢
      have step :
          ((lookupA (collectStep files entry) base).map proj).getD none =
            if entryTarget workerExts entry = some (base, ext) then
              some (jsTrim entry.text)
            else ((lookupA files base).map proj).getD none := by
        rw [collectStep_eq]
        cases htgt : entryTarget workerExts entry with
        | none => simp [htgt]
        | some target =>
            obtain ⟨b, e⟩ := target
            by_cases hb : b = base
            · subst hb
              rw [lookupA_updateAssoc_self]
              by_cases he : e = ext
              · subst he
                simp [hroute]
              · cases hfound : lookupA files b with
                | none => simp [hfound, hroute, he, hdefault, htgt]
                | some found => simp [hfound, hroute, he, htgt]
            · have hne : base ≠ b := fun hc => hb hc.symm
              have hcond : ¬(some (b, e) = some (base, ext)) := by
                intro hc
                injection hc with h1
                exact hb (congrArg Prod.fst h1)
              simp [lookupA_updateAssoc_other b base hne, htgt, hcond]
      rw [ih (collectStep files entry) base layer h, step]

/-- C7 counterexample.  Two entries target layer `a`'s `.prj` text; the
kept text is the second (`"Y"`), not the first-seen `"X"` the claim
requires. -/
theorem collectEntries_prj_first_seen_counterexample :
    (lookupA
        (collectEntries
          [{ filename := "a.prj", text := "X" },
           { filename := "dir/a.prj", text := "Y" }])
        "a").map LayerEntry.prj = some (some "Y") ∧
    (lookupA
        (collectEntries
          [{ filename := "a.prj", text := "X" },
           { filename := "dir/a.prj", text := "Y" }])
        "a").map LayerEntry.prj ≠ some (some "X") := by
  constructor <;> decide

/-- C7 amended.  When several entries target the same text field (`.prj`
or `.cpg`) of one layer, the kept text is the decoded and trimmed text
of the LAST such entry: later entries replace earlier ones. -/
theorem collectEntries_text_last_seen (entries : List ZipEntry)
    (base : String) (layer : LayerEntry)
    (h : lookupA (collectEntries entries) base = some layer) :
    layer.prj = lastLayerText entries base "prj" ∧
    layer.cpg = lastLayerText entries base "cpg" := by
  constructor
  · exact collect_text_aux LayerEntry.prj "prj" routeEntry_prj (fun _ => rfl)
      entries [] base layer h
  · exact collect_text_aux LayerEntry.cpg "cpg" routeEntry_cpg (fun _ => rfl)
      entries [] base layer h

/-- C7 amended witness: with the two-entry archive above, the kept `.prj`
text equals the last entry's text. -/
theorem collectEntries_text_last_seen_witness :
    ({ fileName := "a", prj := some "Y" } : LayerEntry).prj =
      lastLayerText
        [{ filename := "a.prj", text := "X" },
         { filename := "dir/a.prj", text := "Y" }] "a" "prj" ∧
    ({ fileName := "a", prj := some "Y" } : LayerEntry).cpg =
      lastLayerText
        [{ filename := "a.prj", text := "X" },
         { filename := "dir/a.prj", text := "Y" }] "a" "cpg" :=
  collectEntries_text_last_seen _ "a" _ (by decide)

/-! ## C4: projection override precedence and pass-through -/

/-- C4.  When the caller supplies an override code with a catalog
definition, both the projection text handed to the geometry parser and
the coordinate transform are built from that catalog definition with
the `WGS84` geographic target — the layer's own `.prj` text appears
nowhere.  Without an override and without a `.prj`, no transform is
built and the parsed features pass through unmodified. -/
theorem projection_override_precedence
    (parseShpLayer : Option String → List Feature)
    (proj4lib : String → String → (ℚ × ℚ → ℚ × ℚ))
    (layer : LayerEntry) (code : Nat) (definition : String)
    (hdef : sridToProj4 (some code) = some definition) :
    layerPrjText (some code) layer = some definition ∧
    createTransformer proj4lib (some code) =
      some (transformWith (proj4lib definition WGS84)) ∧
    layerFeatures parseShpLayer proj4lib (some code) layer =
      reprojectCollection (transformWith (proj4lib definition WGS84))
        (parseShpLayer (some definition)) ∧
    (layer.prj = none →
      createTransformer proj4lib none = none ∧
      layerFeatures parseShpLayer proj4lib none layer = parseShpLayer none) := by
  refine ⟨?_, ?_, ?_, ?_⟩
  · rw [layerPrjText, hdef]
  · rw [createTransformer, hdef]
  · rw [layerFeatures, layerPrjText, createTransformer, hdef]
  · intro hprj
    refine ⟨rfl, ?_⟩
    rw [layerFeatures, layerPrjText]
    simp [sridToProj4, createTransformer, hprj]

/-- C4 witness: override code 5186 with a layer that carries a (different)
`.prj` text, and the pass-through case with no override and no `.prj`. -/
theorem projection_override_precedence_witness :
    layerPrjText (some 5186) { fileName := "a", prj := some "FILE_PRJ" } =
      some "+proj=tmerc +lat_0=38 +lon_0=127 +k=1 +x_0=200000 +y_0=500000 +ellps=GRS80 +units=m +no_defs +type=crs" ∧
    layerFeatures (fun _ => []) (fun _ _ => id) none { fileName := "b" } = [] := by
  refine ⟨(projection_override_precedence (fun _ => []) (fun _ _ => id)
    { fileName := "a", prj := some "FILE_PRJ" } 5186 _ (by rfl)).1, ?_⟩
  exact ((projection_override_precedence (fun _ => []) (fun _ _ => id)
    { fileName := "b" } 5186 _ (by rfl)).2.2.2 rfl).2

/-! ## C5: encoding used for the attribute table -/

/-- C5 counterexample.  A present but unrecognized `.cpg` hint
(`"latin1"`) with caller default EUC-KR: the label handed to the
attribute decoder is the raw hint text, not the caller default the
claim requires. -/
theorem cpg_fallthrough_counterexample :
    parseEncodingLabel "latin1" = none ∧
    dbfEncodingLabel (some "latin1") .euckr = "latin1" ∧
    dbfEncodingLabel (some "latin1") .euckr ≠ mapEncoding .euckr := by
  exact ⟨by decide, by decide, by decide⟩

/-- C5 amended.  A nonempty `.cpg` text is passed verbatim to the
attribute decoder whether or not it is recognized; the caller default's
mapped label is used only when the layer has no (or an empty) `.cpg`,
and the default option maps to UTF-8.  Separately, the inspection stage
presets the caller default to a recognized label's canonical tag and
leaves it unchanged otherwise. -/
theorem dbfEncoding_resolution (s : String) (d c e : EncodingOption) :
    (s ≠ "" → dbfEncodingLabel (some s) d = s) ∧
    dbfEncodingLabel none d = mapEncoding d ∧
    dbfEncodingLabel (some "") d = mapEncoding d ∧
    resolveDefaultEncoding (some e) c = e ∧
    resolveDefaultEncoding none c = c ∧
    dbfEncodingLabel none .utf8 = "utf-8" := by
  refine ⟨?_, rfl, ?_, rfl, rfl, rfl⟩
  · intro h
    rw [dbfEncodingLabel]
    simp [h]
  · rw [dbfEncodingLabel]
    have htrim : jsTrim "" = "" := rfl
    simp [htrim]

/-- C5 amended witness at the counterexample's input. -/
theorem dbfEncoding_resolution_witness :
    dbfEncodingLabel (some "latin1") .euckr = "latin1" ∧
    dbfEncodingLabel none .euckr = mapEncoding .euckr :=
  ⟨(dbfEncoding_resolution "latin1" .euckr .utf8 .utf8).1 (by decide),
   (dbfEncoding_resolution "latin1" .euckr .utf8 .utf8).2.1⟩

/-! ## Decimal-string helper lemmas -/

theorem toDigitsRev_lt (fuel : Nat) : ∀ (n : Nat), ∀ d ∈ toDigitsRev fuel n, d < 10 := by
  induction fuel with
  | zero => intro n d hd; simp [toDigitsRev] at hd
  | succ fuel ih =>
      intro n d hd
      rw [toDigitsRev] at hd
      by_cases h : n = 0
      · simp [h] at hd
      · simp only [h, if_false] at hd
        rcases List.mem_cons.mp hd with h1 | h2
        · subst h1; exact Nat.mod_lt _ (by norm_num)
        · exact ih (n / 10) d h2

theorem ofDigitsRev_toDigitsRev (fuel : Nat) :
    ∀ n, n ≤ fuel → ofDigitsRev (toDigitsRev fuel n) = n := by
  induction fuel with
  | zero =>
      intro n h
      interval_cases n
      rfl
  | succ fuel ih =>
      intro n h
      rw [toDigitsRev]
      by_cases h0 : n = 0
      · simp [h0, ofDigitsRev]
      · rw [if_neg h0, ofDigitsRev, ih (n / 10) ?_]
        · exact Nat.mod_add_div n 10
        · have : n / 10 < n := Nat.div_lt_self (Nat.pos_of_ne_zero h0) (by norm_num)
          omega

theorem charToDigit_digitChar (d : Nat) (h : d < 10) :
    charToDigit (digitChar d) = d := by
  interval_cases d <;> rfl

theorem decodeNat_natToString (n : Nat) : decodeNat (natToString n) = n := by
  by_cases h : n = 0
  · subst h; rfl
  · rw [natToString, if_neg h, decodeNat]
    show ofDigitsRev
      (((((toDigitsRev n n).map digitChar).reverse).reverse).map charToDigit) = n
    rw [List.reverse_reverse, List.map_map]
    rw [List.map_congr_left (fun d hd => by
      show (charToDigit ∘ digitChar) d = id d
      simp [Function.comp, charToDigit_digitChar d (toDigitsRev_lt n n d hd)])]
    rw [List.map_id]
    exact ofDigitsRev_toDigitsRev n n le_rfl

theorem natToString_inj {m n : Nat} (h : natToString m = natToString n) :
    m = n := by
  have := congrArg decodeNat h
  rwa [decodeNat_natToString, decodeNat_natToString] at this

theorem string_append_left_cancel {s t : String} (u : String)
    (h : u ++ s = u ++ t) : s = t := by
  cases s with | mk ds =>
  cases t with | mk dt =>
  cases u with | mk du =>
  have hd : du ++ ds = du ++ dt := congrArg String.data h
  exact congrArg String.mk (List.append_cancel_left hd)

theorem featureTag_inj {i j : Nat}
    (h : "feature-" ++ natToString i = "feature-" ++ natToString j) :
    i = j :=
  natToString_inj (string_append_left_cancel "feature-" h)

/-! ## Feature-id assignment lemmas -/

theorem propLookup_eq_lookupA (ps : Properties) (key : String) :
    propLookup (some ps) key = lookupA ps key := rfl

theorem assignFeatureId_id (f : Feature) (i : Nat) :
    (assignFeatureId f i).id = some (.vstr (toFeatureId (idCandidate f i))) := rfl

theorem assignFeatureId_geometry (f : Feature) (i : Nat) :
    (assignFeatureId f i).geometry = f.geometry := rfl

theorem assignFeatureId_props (f : Feature) (i : Nat) :
    ∃ ps, (assignFeatureId f i).properties = some ps ∧
      ∃ v, lookupA ps "id" = some v ∧ v ≠ PropValue.vnull := by
  rw [assignFeatureId]
  cases hp : f.properties with
  | none =>
      refine ⟨_, rfl, .vstr (toFeatureId (idCandidate f i)), ?_, by simp⟩
      rw [lookupA_cons]
      simp
  | some ps =>
      cases hl : lookupA ps "id" with
      | none =>
          simp only [propLookup_eq_lookupA, hl]
          refine ⟨_, rfl, .vstr (toFeatureId (idCandidate f i)), ?_, by simp⟩
          rw [setProp, lookupA_updateAssoc_self]
      | some v =>
          cases v with
          | vnull =>
              simp only [propLookup_eq_lookupA, hl]
              refine ⟨_, rfl, .vstr (toFeatureId (idCandidate f i)), ?_, by simp⟩
              rw [setProp, lookupA_updateAssoc_self]
          | vstr s =>
              simp only [propLookup_eq_lookupA, hl]
              exact ⟨ps, rfl, .vstr s, hl, by simp⟩
          | vnum q =>
              simp only [propLookup_eq_lookupA, hl]
              exact ⟨ps, rfl, .vnum q, hl, by simp⟩
          | vbool b =>
              simp only [propLookup_eq_lookupA, hl]
              exact ⟨ps, rfl, .vbool b, hl, by simp⟩

theorem assignFeatureId_writeback (f : Feature) (i : Nat)
    (h : propLookup f.properties "id" = none) :
    propLookup (assignFeatureId f i).properties "id" =
      some (.vstr (toFeatureId (idCandidate f i))) := by
  rw [assignFeatureId]
  cases hp : f.properties with
  | none =>
      show lookupA [("id", PropValue.vstr (toFeatureId (idCandidate f i)))] "id" = _
      rw [lookupA_cons]
      simp
  | some ps =>
      rw [hp] at h
      simp only [propLookup_eq_lookupA] at h ⊢
      simp only [h]
      simp [setProp, propLookup_eq_lookupA, lookupA_updateAssoc_self]

theorem assignFeatureId_idem (f : Feature) (i : Nat) :
    assignFeatureId (assignFeatureId f i) i = assignFeatureId f i := by
  obtain ⟨ps, hps, v, hv, hvn⟩ := assignFeatureId_props f i
  have hcand : idCandidate (assignFeatureId f i) i =
      some (.vstr (toFeatureId (idCandidate f i))) := by
    rw [idCandidate, assignFeatureId_id]
    rfl
  refine Feature.ext ?_ rfl ?_
  · rw [assignFeatureId_id, assignFeatureId_id, hcand]
    rfl
  · show (match (assignFeatureId f i).properties with
      | none => some [("id", PropValue.vstr (toFeatureId (idCandidate (assignFeatureId f i) i)))]
      | some ps =>
          match propLookup (some ps) "id" with
          | none => some (setProp ps "id" (.vstr (toFeatureId (idCandidate (assignFeatureId f i) i))))
          | some .vnull => some (setProp ps "id" (.vstr (toFeatureId (idCandidate (assignFeatureId f i) i))))
          | some _ => some ps) = (assignFeatureId f i).properties
    rw [hps]
    show (match propLookup (some ps) "id" with
      | none => some (setProp ps "id" (.vstr (toFeatureId (idCandidate (assignFeatureId f i) i))))
      | some .vnull => some (setProp ps "id" (.vstr (toFeatureId (idCandidate (assignFeatureId f i) i))))
      | some _ => some ps) = some ps
    rw [propLookup_eq_lookupA, hv]
    cases v with
    | vnull => exact absurd rfl hvn
    | vstr s => rfl
    | vnum q => rfl
    | vbool b => rfl

theorem ensureLoop_get? :
    ∀ (fs : List Feature) (k i : Nat),
      (ensureLoop k fs).get? i = (fs.get? i).map (fun f => assignFeatureId f (k + i)) := by
  intro fs
  induction fs with
  | nil => intro k i; simp [ensureLoop]
  | cons f rest ih =>
      intro k i
      cases i with
      | zero => simp [ensureLoop]
      | succ i =>
          rw [ensureLoop]
          show (ensureLoop (k + 1) rest).get? i = _
          rw [ih (k + 1) i]
          have harith : k + 1 + i = k + (i + 1) := by omega
          rw [harith]
          rfl

theorem ensureLoop_mem :
    ∀ (fs : List Feature) (k : Nat) (f : Feature), f ∈ ensureLoop k fs →
      ∃ f₀ i, f = assignFeatureId f₀ i := by
  intro fs
  induction fs with
  | nil => intro k f hf; simp [ensureLoop] at hf
  | cons g rest ih =>
      intro k f hf
      rw [ensureLoop] at hf
      rcases List.mem_cons.mp hf with h1 | h2
      · exact ⟨g, k, h1⟩
      · exact ih (k + 1) f h2

theorem ensureLoop_idem :
    ∀ (fs : List Feature) (k : Nat), ensureLoop k (ensureLoop k fs) = ensureLoop k fs := by
  intro fs
  induction fs with
  | nil => intro k; rfl
  | cons f rest ih =>
      intro k
      rw [ensureLoop, ensureLoop, assignFeatureId_idem, ih (k + 1)]

/-! ## C9: `ensureFeatureIds` is normalizing and idempotent -/

/-- C9.  After one application of `ensureFeatureIds`, every feature has a
string-valued id and a non-null `id` entry in its properties, and a
second application changes nothing. -/
theorem ensureFeatureIds_normalizing_idempotent (c : FeatureCollectionGeometry) :
    (∀ f ∈ (ensureFeatureIds c).features,
      (∃ s, f.id = some (.vstr s)) ∧
      ∃ ps, f.properties = some ps ∧
        ∃ v, lookupA ps "id" = some v ∧ v ≠ PropValue.vnull) ∧
    ensureFeatureIds (ensureFeatureIds c) = ensureFeatureIds c := by
  constructor
  · intro f hf
    obtain ⟨f₀, i, rfl⟩ := ensureLoop_mem _ _ _ hf
    exact ⟨⟨_, assignFeatureId_id f₀ i⟩, assignFeatureId_props f₀ i⟩
  · rw [ensureFeatureIds, ensureFeatureIds]
    show FeatureCollectionGeometry.mk (ensureLoop 0 (ensureLoop 0 c.features)) _ = _
    rw [ensureLoop_idem]

/-- C9 witness at a one-feature collection. -/
theorem ensureFeatureIds_normalizing_idempotent_witness :
    (∃ s, (assignFeatureId plainFeature 0).id = some (.vstr s)) ∧
    ∃ ps, (assignFeatureId plainFeature 0).properties = some ps ∧
      ∃ v, lookupA ps "id" = some v ∧ v ≠ PropValue.vnull :=
  (ensureFeatureIds_normalizing_idempotent singleCollection).1
    (assignFeatureId plainFeature 0) (List.Mem.head _)

/-! ## C3: identifier precedence, write-back, uniqueness -/

/-- C3 counterexample.  Two rows sharing `OBJECTID = 7` both derive the
identifier `"7"`: derived identifiers are NOT unique in general. -/
theorem ensureFeatureIds_unique_counterexample :
    ((ensureFeatureIds dupObjCollection).features.map Feature.id) =
      [some (.vstr "7"), some (.vstr "7")] ∧
    ¬ ((ensureFeatureIds dupObjCollection).features.map Feature.id).Nodup := by
  exact ⟨by decide, by decide⟩

/-- The synthesized-ids characterization of `ensureLoop`. -/
theorem ensureLoop_ids_synth :
    ∀ (fs : List Feature) (k : Nat),
      (∀ i f, fs.get? i = some f →
        idCandidate f (k + i) = some (.vstr ("feature-" ++ natToString (k + i)))) →
      (ensureLoop k fs).map Feature.id =
        (List.range fs.length).map
          (fun j => some (.vstr ("feature-" ++ natToString (k + j)))) := by
  intro fs
  induction fs with
  | nil => intro k h; rfl
  | cons f rest ih =>
      intro k h
      rw [ensureLoop, List.map_cons, List.length_cons, List.range_succ_eq_map,
        List.map_cons, List.map_map]
      have h0 := h 0 f rfl
      rw [Nat.add_zero] at h0
      have hid : (assignFeatureId f k).id =
          some (.vstr ("feature-" ++ natToString (k + 0))) := by
        rw [Nat.add_zero, assignFeatureId_id, h0]
        rfl
      rw [hid]
      refine congrArg₂ List.cons rfl ?_
      rw [ih (k + 1) (fun i g hg => by
        have := h (i + 1) g hg
        rwa [show k + (i + 1) = k + 1 + i by omega] at this)]
      exact List.map_congr_left (fun j hj => by
        show some (PropValue.vstr ("feature-" ++ natToString (k + 1 + j))) = _
        rw [show k + 1 + j = k + (j + 1) from by omega]
        rfl)

/-- C3 amended.  Each feature's identifier is the string of the first
present candidate among the existing feature id, the row's `OBJECTID`,
`id`, `ID`, and the synthesized `feature-<index>`; when the row has no
`id` entry the derived identifier is written back under `"id"`; and the
derived identifiers are pairwise distinct whenever every feature's
candidate falls through to the synthesized identifier (with explicit id
sources, duplicates such as two equal `OBJECTID`s are possible). -/
theorem ensureFeatureIds_amended (c : FeatureCollectionGeometry) :
    (∀ i f, c.features.get? i = some f →
      ∃ f', (ensureFeatureIds c).features.get? i = some f' ∧
        f'.id = some (.vstr (toFeatureId (jsCoalesce f.id
          (jsCoalesce (propLookup f.properties "OBJECTID")
            (jsCoalesce (propLookup f.properties "id")
              (jsCoalesce (propLookup f.properties "ID")
                (some (.vstr ("feature-" ++ natToString i))))))))) ∧
        (propLookup f.properties "id" = none →
          propLookup f'.properties "id" = f'.id)) ∧
    ((∀ i f, c.features.get? i = some f →
        idCandidate f i = some (.vstr ("feature-" ++ natToString i))) →
      ((ensureFeatureIds c).features.map Feature.id).Nodup) := by
  constructor
  · intro i f hf
    refine ⟨assignFeatureId f i, ?_, ?_, ?_⟩
    · show (ensureLoop 0 c.features).get? i = _
      rw [ensureLoop_get?, hf]
      simp
    · rw [assignFeatureId_id]
      rfl
    · intro hnone
      rw [assignFeatureId_writeback f i hnone, assignFeatureId_id]
  · intro hsynth
    show ((ensureLoop 0 c.features).map Feature.id).Nodup
    rw [ensureLoop_ids_synth c.features 0 (fun i f hf => by
      have := hsynth i f hf
      rwa [Nat.zero_add])]
    refine List.Nodup.map ?_ (List.nodup_range _)
    intro a b hab
    simp only [Nat.zero_add, Option.some.injEq, PropValue.vstr.injEq] at hab
    exact featureTag_inj hab

/-- C3 amended witness: two featureless rows get the distinct synthesized
identifiers `feature-0` and `feature-1`. -/
theorem ensureFeatureIds_amended_witness :
    ((ensureFeatureIds twoPlainCollection).features.map Feature.id).Nodup :=
  (ensureFeatureIds_amended twoPlainCollection).2 (fun i f hf => by
    match i, hf with
    | 0, hf => injection hf with hf; subst hf; decide
    | 1, hf => injection hf with hf; subst hf; decide
    | n + 2, hf => simp [twoPlainCollection] at hf)

/-! ## Quick-preview sampling lemmas -/

theorem strideIndices_length (n stride : Nat) (hs : 0 < stride) :
    ∀ (fuel index : Nat), n - index ≤ fuel →
      (strideIndices n stride hs index).length = (n - index + stride - 1) / stride := by
  intro fuel
  induction fuel with
  | zero =>
      intro index h
      have hin : ¬ index < n := by omega
      rw [strideIndices, if_neg hin]
      have h0 : n - index = 0 := by omega
      rw [h0, List.length_nil, Nat.zero_add]
      exact (Nat.div_eq_of_lt (by omega)).symm
  | succ fuel ih =>
      intro index h
      by_cases hin : index < n
      · rw [strideIndices, if_pos hin, List.length_cons,
          ih (index + stride) (by omega)]
        by_cases hcase : n ≤ index + stride
        · have h1 : n - (index + stride) = 0 := by omega
          rw [h1, Nat.zero_add, Nat.div_eq_of_lt (by omega)]
          have h2 : n - index + stride - 1 = (n - index - 1) + stride := by omega
          rw [h2, Nat.add_div_right _ hs, Nat.div_eq_of_lt (by omega)]
        · have h2 : n - (index + stride) + stride - 1 + stride
              = n - index + stride - 1 := by omega
          rw [← h2, Nat.add_div_right _ hs]
      · rw [strideIndices, if_neg hin]
        have h0 : n - index = 0 := by omega
        rw [h0, List.length_nil, Nat.zero_add]
        exact (Nat.div_eq_of_lt (by omega)).symm

theorem strideIndices_get? (n stride : Nat) (hs : 0 < stride) :
    ∀ (fuel index j : Nat), n - index ≤ fuel →
      (strideIndices n stride hs index).get? j =
        if index + stride * j < n then some (index + stride * j) else none := by
  intro fuel
  induction fuel with
  | zero =>
      intro index j h
      have hin : ¬ index < n := by omega
      rw [strideIndices, if_neg hin]
      have : ¬ index + stride * j < n := by omega
      simp [this]
  | succ fuel ih =>
      intro index j h
      by_cases hin : index < n
      · rw [strideIndices, if_pos hin]
        cases j with
        | zero => simp [hin]
        | succ j =>
            rw [List.get?_cons_succ, ih (index + stride) j (by omega)]
            have harith : index + stride + stride * j = index + stride * (j + 1) := by
              ring
            rw [harith]
      · rw [strideIndices, if_neg hin]
        have : ¬ index + stride * j < n := by omega
        simp [this]

theorem sampleLoop_eq (features : List Feature) (stride : Nat) (hs : 0 < stride) :
    ∀ (fuel index : Nat) (sampled : List Feature),
      features.length - index ≤ fuel →
      sampleLoop features stride hs index sampled =
        sampled ++
          ((strideIndices features.length stride hs index).take
              (QUICK_SAMPLE_TARGET - sampled.length)).map
            (fun i => cloneFeatureWithRoundedGeometry (features.getD i dummyFeature)) := by
  intro fuel
  induction fuel with
  | zero =>
      intro index sampled h
      have hin : ¬ index < features.length := by omega
      rw [sampleLoop, dif_neg hin, strideIndices, if_neg hin]
      simp
  | succ fuel ih =>
      intro index sampled h
      by_cases hin : index < features.length
      · rw [sampleLoop, dif_pos hin, strideIndices, if_pos hin]
        by_cases hfull : QUICK_SAMPLE_TARGET ≤ sampled.length
        · rw [if_pos hfull]
          have h0 : QUICK_SAMPLE_TARGET - sampled.length = 0 := by omega
          simp [h0]
        · rw [if_neg hfull, ih (index + stride) _ (by omega)]
          rw [List.length_append, List.length_singleton]
          have htake : QUICK_SAMPLE_TARGET - sampled.length
              = (QUICK_SAMPLE_TARGET - (sampled.length + 1)) + 1 := by omega
          rw [htake, List.take_succ_cons, List.map_cons]
          have hget : cloneFeatureWithRoundedGeometry (features.getD index dummyFeature)
              = cloneFeatureWithRoundedGeometry (features.get ⟨index, hin⟩) := by
            rw [List.getD_eq_getElem?_getD, List.getElem?_eq_getElem hin]
            rfl
          rw [hget, List.append_assoc]
          rfl
      · rw [sampleLoop, dif_neg hin, strideIndices, if_neg hin]
        simp

theorem applyQuickPreview_le (c : FeatureCollectionGeometry)
    (h : c.features.length ≤ QUICK_SAMPLE_TARGET) :
    (applyQuickPreview c).features = c.features.map cloneFeatureWithRoundedGeometry := by
  rw [applyQuickPreview]
  simp [h]

theorem applyQuickPreview_gt (c : FeatureCollectionGeometry)
    (h : QUICK_SAMPLE_TARGET < c.features.length) :
    (applyQuickPreview c).features.length = QUICK_SAMPLE_TARGET ∧
    ∀ j, j < QUICK_SAMPLE_TARGET →
      (applyQuickPreview c).features.get? j =
        (c.features.get? (j * (c.features.length / QUICK_SAMPLE_TARGET))).map
          cloneFeatureWithRoundedGeometry := by
  have hT : (0 : Nat) < QUICK_SAMPLE_TARGET := by norm_num [QUICK_SAMPLE_TARGET]
  have hs1 : 1 ≤ c.features.length / QUICK_SAMPLE_TARGET :=
    (Nat.one_le_div_iff hT).mpr (le_of_lt h)
  have hmax : max 1 (c.features.length / QUICK_SAMPLE_TARGET)
      = c.features.length / QUICK_SAMPLE_TARGET := max_eq_right hs1
  have hspos : 0 < c.features.length / QUICK_SAMPLE_TARGET := hs1
  have hfe : (applyQuickPreview c).features =
      sampleLoop c.features (max 1 (c.features.length / QUICK_SAMPLE_TARGET))
        (Nat.lt_of_lt_of_le Nat.zero_lt_one (le_max_left 1 _)) 0 [] := by
    rw [applyQuickPreview]
    simp [Nat.not_le.mpr h]
  have hmaxpos : 0 < max 1 (c.features.length / QUICK_SAMPLE_TARGET) :=
    Nat.lt_of_lt_of_le Nat.zero_lt_one (le_max_left 1 _)
  have hsample := sampleLoop_eq c.features _ hmaxpos c.features.length 0 []
    (by omega)
  rw [hsample] at hfe
  simp only [List.nil_append, List.length_nil, Nat.sub_zero] at hfe
  have hmul : max 1 (c.features.length / QUICK_SAMPLE_TARGET) * QUICK_SAMPLE_TARGET
      ≤ c.features.length := by
    rw [hmax]
    exact Nat.div_mul_le_self _ _
  have hslen : (strideIndices c.features.length
      (max 1 (c.features.length / QUICK_SAMPLE_TARGET)) hmaxpos 0).length
      = (c.features.length + max 1 (c.features.length / QUICK_SAMPLE_TARGET) - 1)
        / max 1 (c.features.length / QUICK_SAMPLE_TARGET) := by
    have := strideIndices_length c.features.length _ hmaxpos c.features.length 0
      (by omega)
    simpa using this
  have hlenge : QUICK_SAMPLE_TARGET ≤ (strideIndices c.features.length
      (max 1 (c.features.length / QUICK_SAMPLE_TARGET)) hmaxpos 0).length := by
    rw [hslen]
    calc QUICK_SAMPLE_TARGET
        = max 1 (c.features.length / QUICK_SAMPLE_TARGET) * QUICK_SAMPLE_TARGET
          / max 1 (c.features.length / QUICK_SAMPLE_TARGET) :=
          (Nat.mul_div_cancel_left _ hmaxpos).symm
      _ ≤ (c.features.length + max 1 (c.features.length / QUICK_SAMPLE_TARGET) - 1)
          / max 1 (c.features.length / QUICK_SAMPLE_TARGET) :=
          Nat.div_le_div_right (by omega)
  constructor
  · rw [hfe, List.length_map, List.length_take]
    omega
  · intro j hj
    rw [hfe, List.get?_map, List.get?_take hj,
      strideIndices_get? c.features.length _ hmaxpos c.features.length 0 j (by omega)]
    have hjlt : max 1 (c.features.length / QUICK_SAMPLE_TARGET) * j
        < c.features.length := by
      have h1 : max 1 (c.features.length / QUICK_SAMPLE_TARGET) * j
          < max 1 (c.features.length / QUICK_SAMPLE_TARGET) * QUICK_SAMPLE_TARGET :=
        (mul_lt_mul_left hmaxpos).mpr hj
      omega
    rw [if_pos (by omega : 0 + max 1 (c.features.length / QUICK_SAMPLE_TARGET) * j
      < c.features.length)]
    have hidx : 0 + max 1 (c.features.length / QUICK_SAMPLE_TARGET) * j
        = j * (c.features.length / QUICK_SAMPLE_TARGET) := by
      rw [Nat.zero_add, hmax, Nat.mul_comm]
    rw [hidx]
    have hj2 : j * (c.features.length / QUICK_SAMPLE_TARGET) < c.features.length := by
      rw [← hidx]
      omega
    rw [List.get?_eq_getElem?, List.getElem?_eq_getElem hj2]
    simp only [Option.map_some']
    rw [List.getD_eq_getElem?_getD, List.getElem?_eq_getElem hj2]
    rfl

/-! ## Rounding recursion lemmas -/

theorem roundGeometry_collection (gs : List Geometry) :
    roundGeometry (.geometryCollection gs) = .geometryCollection (gs.map roundGeometry) := by
  rw [roundGeometry]
  exact congrArg Geometry.geometryCollection (List.attach_map_val gs roundGeometry)

theorem geometryPositions_collection (gs : List Geometry) :
    geometryPositions (.geometryCollection gs) = (gs.map geometryPositions).flatten := by
  rw [geometryPositions]
  exact congrArg List.flatten (List.attach_map_val gs geometryPositions)

theorem geometryPositions_roundGeometry : ∀ (g : Geometry),
    geometryPositions (roundGeometry g) = (geometryPositions g).map roundPosition
  | .point cs => by simp [roundGeometry, geometryPositions]
  | .multiPoint cs => by simp [roundGeometry, geometryPositions]
  | .lineString cs => by simp [roundGeometry, geometryPositions]
  | .multiLineString cs => by
      simp [roundGeometry, geometryPositions, List.map_flatten]
  | .polygon cs => by
      simp [roundGeometry, geometryPositions, List.map_flatten]
  | .multiPolygon cs => by
      simp only [roundGeometry, geometryPositions, List.map_flatten, List.map_map]
      congr 1
      exact List.map_congr_left (fun poly _ => by
        simp [Function.comp, List.map_flatten])
  | .geometryCollection gs => by
      rw [roundGeometry_collection, geometryPositions_collection,
        geometryPositions_collection, List.map_map, List.map_flatten, List.map_map]
      congr 1
      exact List.map_congr_left (fun g hg => by
        have hrec := geometryPositions_roundGeometry g
        simpa [Function.comp] using hrec)
termination_by g => sizeOf g
decreasing_by
  have := List.sizeOf_lt_of_mem hg
  simp only [Geometry.geometryCollection.sizeOf_spec]
  omega

/-! ## C2: quick-mode sampling contract -/

/-- C2.  Quick mode: a collection within the target size maps every
feature through the rounding clone; a larger one is sampled at indices
`0, N, 2N, …` with `N = ⌊total / 25000⌋`, capped at 25,000 features;
the output depends only on the feature list (determinism); rounding
recurses through every geometry, taking every coordinate to a multiple
of `10⁻⁵`; and a 150,000-feature input has stride 6, yields exactly
25,000 features and is classified `isLargeFeature`. -/
theorem quick_mode_spec (c : FeatureCollectionGeometry) :
    (c.features.length ≤ QUICK_SAMPLE_TARGET →
      (applyQuickPreview c).features =
        c.features.map cloneFeatureWithRoundedGeometry) ∧
    (QUICK_SAMPLE_TARGET < c.features.length →
      (applyQuickPreview c).features.length = QUICK_SAMPLE_TARGET ∧
      ∀ j, j < QUICK_SAMPLE_TARGET →
        (applyQuickPreview c).features.get? j =
          (c.features.get? (j * (c.features.length / QUICK_SAMPLE_TARGET))).map
            cloneFeatureWithRoundedGeometry) ∧
    (∀ c', c.features = c'.features → applyQuickPreview c = applyQuickPreview c') ∧
    (∀ g, geometryPositions (roundGeometry g) =
      (geometryPositions g).map roundPosition) ∧
    (∀ p, roundPosition p = p.map roundCoord) ∧
    (∀ q, ∃ z : ℤ, roundCoord q = (z : ℚ) / 100000) ∧
    (c.features.length = 150000 →
      c.features.length / QUICK_SAMPLE_TARGET = 6 ∧
      (applyQuickPreview c).features.length = 25000 ∧
      isLargeFeatureCount c.features.length = true) := by
  refine ⟨applyQuickPreview_le c, applyQuickPreview_gt c, ?_, geometryPositions_roundGeometry,
    fun p => rfl, fun q => ⟨round (q * 100000), rfl⟩, ?_⟩
  · intro c' hfeat
    cases c with | mk fs fn =>
    cases c' with | mk fs' fn' =>
    have h' : fs = fs' := hfeat
    subst h'
    rfl
  · intro h150
    have hgt : QUICK_SAMPLE_TARGET < c.features.length := by
      rw [h150]
      norm_num [QUICK_SAMPLE_TARGET]
    have hdiv : c.features.length / QUICK_SAMPLE_TARGET = 6 := by
      rw [h150]
      rfl
    refine ⟨hdiv, ?_, ?_⟩
    · exact (applyQuickPreview_gt c hgt).1
    · rw [isLargeFeatureCount, h150]
      rfl

/-- C2 witness: the small-collection branch on a 2-feature input, and the
sampling branch on a 150,000-feature input. -/
theorem quick_mode_spec_witness :
    ((applyQuickPreview twoPlainCollection).features =
      twoPlainCollection.features.map cloneFeatureWithRoundedGeometry) ∧
    (largeCollection.features.length / QUICK_SAMPLE_TARGET = 6 ∧
      (applyQuickPreview largeCollection).features.length = 25000 ∧
      isLargeFeatureCount largeCollection.features.length = true) :=
  ⟨(quick_mode_spec twoPlainCollection).1 (by decide),
   (quick_mode_spec largeCollection).2.2.2.2.2.2
     (List.length_replicate 150000 plainFeature)⟩

/-! ## C10: `applyQuickPreview` preserves ids and properties -/

/-- C10.  Every quick-preview output feature is a rounded clone of some
input feature: same id, the same property key/value pairs (a `null`
property map becomes the empty map, with the same pairs), and a
geometry equal to the rounding of the input's geometry.  The input
collection itself is untouched (the embedding is pure; the source
builds fresh objects and never writes to its argument). -/
theorem applyQuickPreview_frame (c : FeatureCollectionGeometry) :
    ∀ j f', (applyQuickPreview c).features.get? j = some f' →
      ∃ f, f ∈ c.features ∧
        f'.id = f.id ∧
        f'.properties = some (f.properties.getD []) ∧
        f'.geometry = roundGeometry f.geometry := by
  intro j f' hj
  by_cases h : c.features.length ≤ QUICK_SAMPLE_TARGET
  · rw [applyQuickPreview_le c h, List.get?_eq_getElem?, List.getElem?_map] at hj
    cases hget : c.features[j]? with
    | none => rw [hget] at hj; exact absurd hj (by simp)
    | some f =>
        rw [hget] at hj
        refine ⟨f, List.getElem?_mem hget, ?_, ?_, ?_⟩ <;>
          (injection hj with hj; rw [← hj]; rfl)
  · have hlt := Nat.not_le.mp h
    have hlen := (applyQuickPreview_gt c hlt).1
    have hjlt : j < QUICK_SAMPLE_TARGET := by
      by_contra hge
      have : (applyQuickPreview c).features.get? j = none := by
        rw [List.get?_eq_getElem?]
        exact List.getElem?_eq_none (by omega)
      rw [this] at hj
      exact absurd hj (by simp)
    have hspec := (applyQuickPreview_gt c hlt).2 j hjlt
    rw [hspec] at hj
    cases hget : c.features.get? (j * (c.features.length / QUICK_SAMPLE_TARGET)) with
    | none => rw [hget] at hj; exact absurd hj (by simp)
    | some f =>
        rw [hget] at hj
        have hmem : f ∈ c.features := by
          rw [List.get?_eq_getElem?] at hget
          exact List.getElem?_mem hget
        refine ⟨f, hmem, ?_, ?_, ?_⟩ <;>
          (injection hj with hj; rw [← hj]; rfl)

/-- C10 witness: the single output feature of a one-feature collection is
the rounded clone of that feature. -/
theorem applyQuickPreview_frame_witness :
    ∃ f, f ∈ quickWitnessCollection.features ∧
      (cloneFeatureWithRoundedGeometry quickWitnessFeature).id = f.id ∧
      (cloneFeatureWithRoundedGeometry quickWitnessFeature).properties =
        some (f.properties.getD []) ∧
      (cloneFeatureWithRoundedGeometry quickWitnessFeature).geometry =
        roundGeometry f.geometry :=
  applyQuickPreview_frame quickWitnessCollection 0
    (cloneFeatureWithRoundedGeometry quickWitnessFeature) rfl

/-! ## C6: progress message lemmas -/

theorem clampPercent_bounds (v : ℚ) :
    1 ≤ clampPercent v ∧ clampPercent v ≤ 99 :=
  ⟨le_min (by norm_num) (le_max_left 1 _), min_le_left _ _⟩

theorem round_mono_q {a b : ℚ} (h : a ≤ b) : round a ≤ round b := by
  rw [round_eq, round_eq]
  exact Int.floor_le_floor (by linarith)

theorem clampPercent_mono {a b : ℚ} (h : a ≤ b) :
    clampPercent a ≤ clampPercent b :=
  min_le_min le_rfl (max_le_max le_rfl (round_mono_q h))

theorem clampPercent_le90 {v : ℚ} (h : v ≤ 85) : clampPercent v ≤ 90 := by
  have hr : round v ≤ 85 := by
    have h85 : round (85 : ℚ) = 85 := round_ofNat 85
    have := round_mono_q h
    rwa [h85] at this
  calc clampPercent v ≤ max 1 (round v) := min_le_right _ _
    _ ≤ 85 := max_le (by norm_num) hr
    _ ≤ 90 := by norm_num

theorem layerLoop_elements (id L : Nat) (p : ℚ) :
    ∀ (fuel index : Nat), L - index ≤ fuel →
      ∀ m ∈ layerLoop id L p index,
        msgId m = id ∧ isProgressMsg m = true ∧
        ∃ (i : Nat), i ≤ L ∧ msgPercent m = some (clampPercent (20 + p * i)) := by
  intro fuel
  induction fuel with
  | zero =>
      intro index h m hm
      have hin : ¬ index < L := by omega
      rw [layerLoop, if_neg hin] at hm
      exact absurd hm (List.not_mem_nil m)
  | succ fuel ih =>
      intro index h m hm
      by_cases hin : index < L
      · rw [layerLoop, if_pos hin] at hm
        rcases List.mem_cons.mp hm with h1 | hm2
        · subst h1
          exact ⟨rfl, rfl, index, by omega, rfl⟩
        · rcases List.mem_cons.mp hm2 with h2 | hm3
          · subst h2
            exact ⟨rfl, rfl, index + 1, by omega, rfl⟩
          · exact ih (index + 1) (by omega) m hm3
      · rw [layerLoop, if_neg hin] at hm
        exact absurd hm (List.not_mem_nil m)

theorem layerLoop_chain (id L : Nat) (p : ℚ) (hp : 0 ≤ p) :
    ∀ (fuel index : Nat), L - index ≤ fuel →
      List.Chain' (· ≤ ·) ((layerLoop id L p index).filterMap msgPercent) ∧
      ((layerLoop id L p index).filterMap msgPercent).head? =
        (if index < L then some (clampPercent (20 + p * index)) else none) := by
  intro fuel
  induction fuel with
  | zero =>
      intro index h
      have hin : ¬ index < L := by omega
      rw [layerLoop, if_neg hin]
      simp [hin]
  | succ fuel ih =>
      intro index h
      by_cases hin : index < L
      · rw [layerLoop, if_pos hin]
        obtain ⟨ihc, ihh⟩ := ih (index + 1) (by omega)
        simp only [List.filterMap_cons, msgPercent]
        constructor
        · refine List.chain'_cons.mpr ⟨?_, ?_⟩
          · apply clampPercent_mono
            have hle : (index : ℚ) ≤ ((index + 1 : Nat) : ℚ) := by
              exact_mod_cast Nat.le_succ index
            exact add_le_add_left (mul_le_mul_of_nonneg_left hle hp) 20
          · refine List.chain'_cons'.mpr ⟨?_, ihc⟩
            intro y hy
            rw [ihh] at hy
            by_cases hin2 : index + 1 < L
            · rw [if_pos hin2, Option.mem_def] at hy
              injection hy with hy
              exact le_of_eq hy
            · rw [if_neg hin2] at hy
              simp at hy
        · rw [if_pos hin]
          rfl
      · rw [layerLoop, if_neg hin]
        simp [hin]

/-- C6.  Every message of one job carries that job's id; every progress
percent is an integer in `[1, 99]`; the percent sequence is
monotonically non-decreasing; and the message list ends with one
terminal success-or-error message preceded only by progress messages. -/
theorem progress_messages_spec (id : Nat) (entries : List ZipEntry) :
    (∀ m ∈ jobMessages id entries, msgId m = id) ∧
    (∀ m ∈ jobMessages id entries, ∀ pc, msgPercent m = some pc →
      1 ≤ pc ∧ pc ≤ 99) ∧
    List.Chain' (· ≤ ·) ((jobMessages id entries).filterMap msgPercent) ∧
    (∃ t init, jobMessages id entries = init ++ [t] ∧ isTerminalMsg t = true ∧
      ∀ m ∈ init, isProgressMsg m = true) := by
  by_cases hL : (workerLayers entries).length = 0
  · rw [jobMessages, if_pos hL]
    refine ⟨?_, ?_, ?_, ?_⟩
    · intro m hm
      rcases List.mem_cons.mp hm with h1 | hm2
      · subst h1; rfl
      rcases List.mem_cons.mp hm2 with h2 | hm3
      · subst h2; rfl
      rcases List.mem_cons.mp hm3 with h3 | hm4
      · subst h3; rfl
      · exact absurd hm4 (List.not_mem_nil m)
    · intro m hm pc hpc
      rcases List.mem_cons.mp hm with h1 | hm2
      · subst h1
        injection hpc with hpc
        rw [← hpc]
        exact clampPercent_bounds 5
      rcases List.mem_cons.mp hm2 with h2 | hm3
      · subst h2
        injection hpc with hpc
        rw [← hpc]
        exact clampPercent_bounds 12
      rcases List.mem_cons.mp hm3 with h3 | hm4
      · subst h3; exact absurd hpc (by simp [msgPercent])
      · exact absurd hm4 (List.not_mem_nil m)
    · simp only [List.filterMap_cons, msgPercent]
      exact List.chain'_cons.mpr ⟨clampPercent_mono (by norm_num),
        List.chain'_singleton _⟩
    · exact ⟨.error id "SHP 레이어를 찾지 못했습니다.",
        [.progress id "ZIP 해제 중" (clampPercent 5),
         .progress id "레이어 구성 중" (clampPercent 12)], rfl, rfl,
        by
          intro m hm
          rcases List.mem_cons.mp hm with h1 | hm2
          · subst h1; rfl
          rcases List.mem_cons.mp hm2 with h2 | hm3
          · subst h2; rfl
          · exact absurd hm3 (List.not_mem_nil m)⟩
  · have hLpos : 0 < (workerLayers entries).length := Nat.pos_of_ne_zero hL
    have hLq : (0 : ℚ) < ((workerLayers entries).length : ℚ) := by
      exact_mod_cast hLpos
    have hp : perLayerSpan entries = 65 / ((workerLayers entries).length : ℚ) := by
      rw [perLayerSpan, if_neg hL]
    have hp0 : 0 ≤ perLayerSpan entries := by
      rw [hp]
      positivity
    have hbound : ∀ i : Nat, i ≤ (workerLayers entries).length →
        perLayerSpan entries * (i : ℚ) ≤ 65 := by
      intro i hi
      rw [hp]
      calc 65 / ((workerLayers entries).length : ℚ) * (i : ℚ)
          ≤ 65 / ((workerLayers entries).length : ℚ)
            * ((workerLayers entries).length : ℚ) := by
            apply mul_le_mul_of_nonneg_left _ (by positivity)
            exact_mod_cast hi
        _ = 65 := div_mul_cancel₀ 65 (ne_of_gt hLq)
    have hloopel := layerLoop_elements id (workerLayers entries).length
      (perLayerSpan entries) (workerLayers entries).length 0 (by omega)
    have hloopch := layerLoop_chain id (workerLayers entries).length
      (perLayerSpan entries) hp0 (workerLayers entries).length 0 (by omega)
    rw [jobMessages, if_neg hL]
    refine ⟨?_, ?_, ?_, ?_⟩
    · intro m hm
      rcases List.mem_cons.mp hm with h1 | hm2
      · subst h1; rfl
      rcases List.mem_cons.mp hm2 with h2 | hm3
      · subst h2; rfl
      rcases List.mem_append.mp hm3 with hloop | hend
      · exact (hloopel m hloop).1
      rcases List.mem_cons.mp hend with h3 | hm4
      · subst h3; rfl
      rcases List.mem_cons.mp hm4 with h4 | hm5
      · subst h4; rfl
      · exact absurd hm5 (List.not_mem_nil m)
    · intro m hm pc hpc
      rcases List.mem_cons.mp hm with h1 | hm2
      · subst h1
        injection hpc with hpc
        rw [← hpc]
        exact clampPercent_bounds 5
      rcases List.mem_cons.mp hm2 with h2 | hm3
      · subst h2
        injection hpc with hpc
        rw [← hpc]
        exact clampPercent_bounds 12
      rcases List.mem_append.mp hm3 with hloop | hend
      · obtain ⟨-, -, i, -, hper⟩ := hloopel m hloop
        rw [hper] at hpc
        injection hpc with hpc
        rw [← hpc]
        exact clampPercent_bounds _
      rcases List.mem_cons.mp hend with h3 | hm4
      · subst h3
        injection hpc with hpc
        rw [← hpc]
        exact clampPercent_bounds 90
      rcases List.mem_cons.mp hm4 with h4 | hm5
      · subst h4; exact absurd hpc (by simp [msgPercent])
      · exact absurd hm5 (List.not_mem_nil m)
    · simp only [List.filterMap_cons, msgPercent, List.filterMap_append]
      refine List.chain'_cons.mpr ⟨clampPercent_mono (by norm_num), ?_⟩
      refine List.chain'_cons'.mpr ⟨?_, ?_⟩
      · intro y hy
        rw [List.head?_append, hloopch.2, if_pos hLpos, Option.mem_def] at hy
        have hy' : some (clampPercent (20 + perLayerSpan entries * ((0 : Nat) : ℚ)))
            = some y := hy
        injection hy' with hy'
        rw [← hy']
        apply clampPercent_mono
        push_cast
        linarith
      · refine (List.chain'_append).mpr ⟨hloopch.1, ?_, ?_⟩
        · simp
        · intro x hx y hy
          simp only [List.head?_cons, Option.mem_def, Option.some.injEq] at hy
          subst hy
          have hxmem : x ∈ (layerLoop id (workerLayers entries).length
              (perLayerSpan entries) 0).filterMap msgPercent :=
            List.mem_of_mem_getLast? hx
          obtain ⟨m, hmmem, hmx⟩ := List.mem_filterMap.mp hxmem
          obtain ⟨-, -, i, hiL, hper⟩ := hloopel m hmmem
          rw [hper] at hmx
          injection hmx with hmx
          rw [← hmx]
          have h85 : 20 + perLayerSpan entries * (i : ℚ) ≤ 85 := by
            have := hbound i hiL
            linarith
          have h90 := clampPercent_le90 h85
          have hc90 : clampPercent 90 = 90 := by
            rw [clampPercent, round_ofNat]
            decide
          rw [hc90]
          exact h90
    · refine ⟨.success id,
        .progress id "ZIP 해제 중" (clampPercent 5) ::
        .progress id "레이어 구성 중" (clampPercent 12) ::
        (layerLoop id (workerLayers entries).length (perLayerSpan entries) 0 ++
          [.progress id "GeoJSON 정리 중" (clampPercent 90)]), ?_, rfl, ?_⟩
      · simp
      · intro m hm
        rcases List.mem_cons.mp hm with h1 | hm2
        · subst h1; rfl
        rcases List.mem_cons.mp hm2 with h2 | hm3
        · subst h2; rfl
        rcases List.mem_append.mp hm3 with hloop | hend
        · exact ((hloopel m hloop).2).1
        rcases List.mem_cons.mp hend with h3 | hm4
        · subst h3; rfl
        · exact absurd hm4 (List.not_mem_nil m)

/-- C6 witness: the first message of a concrete single-layer job carries
the job id and an in-range percent. -/
theorem progress_messages_spec_witness :
    msgId (WorkerMsg.progress 1 "ZIP 해제 중" (clampPercent 5)) = 1 ∧
    (1 ≤ clampPercent 5 ∧ clampPercent 5 ≤ 99) :=
  ⟨(progress_messages_spec 1 [{ filename := "a.shp", text := "" }]).1 _
      (List.Mem.head _),
   (progress_messages_spec 1 [{ filename := "a.shp", text := "" }]).2.1 _
      (List.Mem.head _) (clampPercent 5) rfl⟩

/-! ## C8: column-statistics lemmas -/

theorem registerValue_eq (aggregates : List (String × ColumnAggregate))
    (name : String) (value : PropValue) :
    registerValue aggregates name value =
      updateAssoc name (fun found => updateAggregate (found.getD {}) value)
        aggregates := rfl

/-- Fibration of the pair-fold: the final aggregate of one column is the
fold of that column's values alone. -/
theorem lookupA_foldl_registerValue (name : String) :
    ∀ (pairs : List (String × PropValue))
      (aggregates : List (String × ColumnAggregate)),
      lookupA (pairs.foldl (fun a p => registerValue a p.1 p.2) aggregates) name =
        ((pairs.filter (fun p => p.1 = name)).map (fun p => p.2)).foldl
          (fun oa v => some (updateAggregate (oa.getD {}) v))
          (lookupA aggregates name) := by
  intro pairs
  induction pairs with
  | nil => intro aggregates; rfl
  | cons p rest ih =>
      intro aggregates
      rw [List.foldl_cons]
      by_cases hk : p.1 = name
      · rw [List.filter_cons_of_pos (by simp [hk]), List.map_cons, List.foldl_cons,
          ih, registerValue_eq, hk, lookupA_updateAssoc_self]
      · rw [List.filter_cons_of_neg (by simp [hk]), ih, registerValue_eq,
          lookupA_updateAssoc_other p.1 name (fun hc => hk hc.symm)]

theorem foldl_props_bind (step : List (String × ColumnAggregate) →
      (String × PropValue) → List (String × ColumnAggregate)) :
    ∀ (features : List Feature) (aggregates : List (String × ColumnAggregate)),
      features.foldl (fun a ft => (ft.properties.getD []).foldl step a) aggregates =
        (features.flatMap (fun ft => ft.properties.getD [])).foldl step aggregates := by
  intro features
  induction features with
  | nil => intro aggregates; rfl
  | cons f rest ih =>
      intro aggregates
      rw [List.foldl_cons, ih]
      show ((rest.flatMap fun ft => ft.properties.getD []).foldl step
          ((f.properties.getD []).foldl step aggregates)) =
        (((f.properties.getD []) ++
          (rest.flatMap fun ft => ft.properties.getD [])).foldl step aggregates)
      rw [List.foldl_append]

theorem collectAggregates_lookup (features : List Feature) (name : String) :
    lookupA (collectAggregates features) name =
      (columnValues features name).foldl
        (fun oa v => some (updateAggregate (oa.getD {}) v)) none := by
  rw [collectAggregates, foldl_props_bind, lookupA_foldl_registerValue,
    columnValues]
  rfl

/-! Sorting is a permutation, so membership in the sorted column list is
membership before sorting. -/

theorem insertByFillRate_perm (column : ColumnStat) :
    ∀ (l : List ColumnStat), List.Perm (insertByFillRate column l) (column :: l) := by
  intro l
  induction l with
  | nil => exact List.Perm.refl _
  | cons c cs ih =>
      rw [insertByFillRate]
      by_cases h : column.fillRate ≤ c.fillRate
      · rw [if_pos h]
      · rw [if_neg h]
        exact (ih.cons c).trans (List.Perm.swap column c cs)

theorem sortByFillRate_perm :
    ∀ (l : List ColumnStat), List.Perm (sortByFillRate l) l := by
  intro l
  induction l with
  | nil => exact List.Perm.refl _
  | cons c cs ih =>
      rw [sortByFillRate]
      exact (insertByFillRate_perm c _).trans (ih.cons c)

/-! Keys of the aggregate map are distinct, so a member pair is what
lookup returns. -/

theorem updateAssoc_map_fst {β : Type} (key : String) (f : Option β → β) :
    ∀ (l : List (String × β)),
      (updateAssoc key f l).map Prod.fst =
        if key ∈ l.map Prod.fst then l.map Prod.fst
        else l.map Prod.fst ++ [key] := by
  intro l
  induction l with
  | nil => simp [updateAssoc]
  | cons p ps ih =>
      by_cases h : p.1 = key
      · rw [updateAssoc, if_pos h, List.map_cons, List.map_cons]
        rw [if_pos (by rw [h]; exact List.mem_cons_self _ _)]
        rw [h]
      · rw [updateAssoc, if_neg h, List.map_cons, List.map_cons, ih]
        by_cases hmem : key ∈ ps.map Prod.fst
        · rw [if_pos hmem, if_pos (List.mem_cons_of_mem _ hmem)]
        · rw [if_neg hmem, if_neg (by
            intro hc
            rcases List.mem_cons.mp hc with h1 | h2
            · exact h h1.symm
            · exact hmem h2)]
          rfl

theorem updateAssoc_keys_nodup {β : Type} (key : String) (f : Option β → β)
    (l : List (String × β)) (h : (l.map Prod.fst).Nodup) :
    ((updateAssoc key f l).map Prod.fst).Nodup := by
  rw [updateAssoc_map_fst]
  by_cases hk : key ∈ l.map Prod.fst
  · rwa [if_pos hk]
  · rw [if_neg hk]
    simp [List.nodup_append, h, hk]

theorem collectAggregates_keys_nodup (features : List Feature) :
    ((collectAggregates features).map Prod.fst).Nodup := by
  rw [collectAggregates, foldl_props_bind]
  have haux : ∀ (pairs : List (String × PropValue))
      (aggs : List (String × ColumnAggregate)),
      (aggs.map Prod.fst).Nodup →
      ((pairs.foldl (fun a p => registerValue a p.1 p.2) aggs).map Prod.fst).Nodup := by
    intro pairs
    induction pairs with
    | nil => intro aggs h; exact h
    | cons p rest ih =>
        intro aggs h
        exact ih _ (updateAssoc_keys_nodup _ _ _ h)
  exact haux _ [] (by simp)

theorem lookupA_of_mem_nodup {β : Type} :
    ∀ (l : List (String × β)), (l.map Prod.fst).Nodup →
      ∀ p ∈ l, lookupA l p.1 = some p.2 := by
  intro l
  induction l with
  | nil => intro _ p hp; exact absurd hp (List.not_mem_nil p)
  | cons q qs ih =>
      intro hnd p hp
      rw [List.map_cons, List.nodup_cons] at hnd
      rcases List.mem_cons.mp hp with h1 | h2
      · subst h1
        rw [lookupA_cons, if_pos rfl]
      · rw [lookupA_cons]
        have hne : q.1 ≠ p.1 := by
          intro hc
          exact hnd.1 (hc ▸ List.mem_map.mpr ⟨p, h2, rfl⟩)
        rw [if_neg hne]
        exact ih hnd.2 p h2

/-! The unique-value tracker: exact while at most 2,000 distinct keys,
overflow beyond. -/

theorem setAdd_length_le {α : Type} [DecidableEq α] (s : List α) (x : α) :
    s.length ≤ (setAdd s x).length := by
  rw [setAdd]
  by_cases h : x ∈ s <;> simp [h]

theorem updateAggregate_uniqueFields (a : ColumnAggregate) (v : PropValue) :
    (updateAggregate a v).uniqueValues =
      (if isEmptyValue v = false ∧ a.uniqueOverflow = false
       then setAdd a.uniqueValues (uniqueKeyOf v) else a.uniqueValues) ∧
    (updateAggregate a v).uniqueOverflow =
      (if isEmptyValue v = false ∧ a.uniqueOverflow = false
       then decide (UNIQUE_TRACK_LIMIT < (setAdd a.uniqueValues (uniqueKeyOf v)).length)
       else a.uniqueOverflow) := by
  rw [updateAggregate]
  by_cases he : isEmptyValue v
  · simp [he]
  · by_cases hov : a.uniqueOverflow
    · cases v <;> cases hnum : a.numeric <;> simp_all
    · cases v <;> cases hnum : a.numeric <;> simp_all

theorem uniqueInv_step (a : ColumnAggregate) (ks : List String) (v : PropValue)
    (h : (a.uniqueOverflow = false ∧ a.uniqueValues = ks ∧
            ks.length ≤ UNIQUE_TRACK_LIMIT) ∨
         (a.uniqueOverflow = true ∧ UNIQUE_TRACK_LIMIT < ks.length)) :
    ((updateAggregate a v).uniqueOverflow = false ∧
      (updateAggregate a v).uniqueValues =
        (if isEmptyValue v then ks else setAdd ks (uniqueKeyOf v)) ∧
      (if isEmptyValue v then ks else setAdd ks (uniqueKeyOf v)).length
        ≤ UNIQUE_TRACK_LIMIT) ∨
    ((updateAggregate a v).uniqueOverflow = true ∧
      UNIQUE_TRACK_LIMIT <
        (if isEmptyValue v then ks else setAdd ks (uniqueKeyOf v)).length) := by
  obtain ⟨hval, hov⟩ := updateAggregate_uniqueFields a v
  rcases h with ⟨h1, h2, h3⟩ | ⟨h1, h2⟩
  · by_cases he : isEmptyValue v = true
    · rw [if_pos he]
      have hcond : ¬(isEmptyValue v = false ∧ a.uniqueOverflow = false) := by
        simp [he]
      rw [if_neg hcond] at hval hov
      exact Or.inl ⟨hov.trans h1, hval.trans h2, h3⟩
    · rw [if_neg he]
      have he' : isEmptyValue v = false := by
        simpa using he
      have hcond : isEmptyValue v = false ∧ a.uniqueOverflow = false := ⟨he', h1⟩
      rw [if_pos hcond] at hval hov
      by_cases hlim :
          UNIQUE_TRACK_LIMIT < (setAdd a.uniqueValues (uniqueKeyOf v)).length
      · refine Or.inr ⟨?_, ?_⟩
        · rw [hov]
          simpa using hlim
        · rw [← h2]
          exact hlim
      · refine Or.inl ⟨?_, ?_, ?_⟩
        · rw [hov]
          simpa using hlim
        · rw [hval, h2]
        · rw [← h2]
          omega
  · have hcond : ¬(isEmptyValue v = false ∧ a.uniqueOverflow = false) := by
      simp [h1]
    rw [if_neg hcond] at hval hov
    refine Or.inr ⟨hov.trans h1, ?_⟩
    by_cases he : isEmptyValue v = true
    · rw [if_pos he]
      exact h2
    · rw [if_neg he]
      exact lt_of_lt_of_le h2 (setAdd_length_le ks _)

/-- Once the option-valued fold has a `some` accumulator it is the plain
fold wrapped in `some`. -/
theorem optFold_some (vs : List PropValue) :
    ∀ (a : ColumnAggregate),
      vs.foldl (fun oa v => some (updateAggregate (oa.getD {}) v)) (some a) =
        some (vs.foldl updateAggregate a) := by
  induction vs with
  | nil => intro a; rfl
  | cons v rest ih =>
      intro a
      rw [List.foldl_cons, List.foldl_cons]
      exact ih (updateAggregate a v)

/-- The unique-tracker invariant is preserved by folding any value list. -/
theorem uniqueInv_fold (vs : List PropValue) :
    ∀ (a : ColumnAggregate) (ks : List String),
      ((a.uniqueOverflow = false ∧ a.uniqueValues = ks ∧
          ks.length ≤ UNIQUE_TRACK_LIMIT) ∨
        (a.uniqueOverflow = true ∧ UNIQUE_TRACK_LIMIT < ks.length)) →
      (((vs.foldl updateAggregate a).uniqueOverflow = false ∧
          (vs.foldl updateAggregate a).uniqueValues =
            vs.foldl (fun acc v => if isEmptyValue v then acc
              else setAdd acc (uniqueKeyOf v)) ks ∧
          (vs.foldl (fun acc v => if isEmptyValue v then acc
              else setAdd acc (uniqueKeyOf v)) ks).length ≤ UNIQUE_TRACK_LIMIT) ∨
        ((vs.foldl updateAggregate a).uniqueOverflow = true ∧
          UNIQUE_TRACK_LIMIT <
            (vs.foldl (fun acc v => if isEmptyValue v then acc
              else setAdd acc (uniqueKeyOf v)) ks).length)) := by
  induction vs with
  | nil => intro a ks h; exact h
  | cons v rest ih =>
      intro a ks h
      rw [List.foldl_cons, List.foldl_cons]
      exact ih _ _ (uniqueInv_step a ks v h)

/-- The finished accumulator of any column of `collectAggregates`
satisfies the unique-tracker invariant against that column's distinct
non-empty value keys. -/
theorem collectAggregates_uniqueInv (features : List Feature) (name : String)
    (a : ColumnAggregate)
    (hmem : (name, a) ∈ collectAggregates features) :
    (a.uniqueOverflow = false ∧
        a.uniqueValues = distinctKeys (columnValues features name) ∧
        (distinctKeys (columnValues features name)).length
          ≤ UNIQUE_TRACK_LIMIT) ∨
    (a.uniqueOverflow = true ∧
        UNIQUE_TRACK_LIMIT <
          (distinctKeys (columnValues features name)).length) := by
  have hlook : lookupA (collectAggregates features) name = some a :=
    lookupA_of_mem_nodup _ (collectAggregates_keys_nodup features)
      (name, a) hmem
  rw [collectAggregates_lookup] at hlook
  cases hv : columnValues features name with
  | nil =>
      rw [hv] at hlook
      exact absurd hlook (by simp)
  | cons v vs =>
      have h1 : (columnValues features name).foldl
          (fun oa v => some (updateAggregate (oa.getD {}) v)) none =
          some ((v :: vs).foldl updateAggregate {}) := by
        rw [hv, List.foldl_cons, List.foldl_cons]
        exact optFold_some vs (updateAggregate {} v)
      rw [h1] at hlook
      injection hlook with hlook
      have hinv := uniqueInv_fold (v :: vs) {} []
        (Or.inl ⟨rfl, rfl, by decide⟩)
      rw [hlook] at hinv
      rw [distinctKeys]
      exact hinv

/-- The unique-count and unique-ratio fields of one reported column. -/
theorem mkColumnStat_unique (n : Nat) (name : String) (a : ColumnAggregate) :
    (mkColumnStat n name a).uniqueCount =
      (if a.uniqueOverflow then none else some a.uniqueValues.length) ∧
    (mkColumnStat n name a).uniqueRatio =
      (if a.uniqueOverflow then none
       else if n = 0 then none
       else some ((a.uniqueValues.length : ℚ) / n)) ∧
    (mkColumnStat n name a).name = name := by
  refine ⟨rfl, ?_, rfl⟩
  by_cases hov : a.uniqueOverflow
  · simp [mkColumnStat, hov]
  · simp [mkColumnStat, hov]

/-- C8: every column of the summary belongs to a nonempty feature list;
while the column's distinct non-empty value keys number at most 2,000 the
unique count is reported exactly as that number and the unique ratio as
that number over the feature count; once the distinct keys exceed 2,000
both the unique count and the unique ratio are reported as `none`, never
as a wrong exact count. -/
theorem unique_count_cap (c : FeatureCollectionGeometry) (fileName : String) :
    ∀ col ∈ (summarizeCollection c fileName).columns,
      0 < (summarizeCollection c fileName).featureCount ∧
      ((distinctKeys (columnValues c.features col.name)).length
          ≤ UNIQUE_TRACK_LIMIT →
        col.uniqueCount =
          some (distinctKeys (columnValues c.features col.name)).length ∧
        col.uniqueRatio =
          some (((distinctKeys (columnValues c.features col.name)).length : ℚ)
            / (summarizeCollection c fileName).featureCount)) ∧
      (UNIQUE_TRACK_LIMIT <
          (distinctKeys (columnValues c.features col.name)).length →
        col.uniqueCount = none ∧ col.uniqueRatio = none) := by
  intro col hcol
  have hcol' : col ∈ sortByFillRate
      ((collectAggregates c.features).map
        (fun p => mkColumnStat c.features.length p.1 p.2)) := hcol
  have hmem := (sortByFillRate_perm _).mem_iff.mp hcol'
  rcases List.mem_map.mp hmem with ⟨p, hp, hcoleq⟩
  have hpos : 0 < c.features.length := by
    cases hf : c.features with
    | nil =>
        rw [hf] at hp
        exact absurd hp (List.not_mem_nil p)
    | cons f fs => exact Nat.succ_pos _
  obtain ⟨hcnt, hratio, hnm⟩ := mkColumnStat_unique c.features.length p.1 p.2
  rw [hcoleq] at hcnt hratio hnm
  have hinv := collectAggregates_uniqueInv c.features p.1 p.2 hp
  have hfc : (summarizeCollection c fileName).featureCount =
      c.features.length := rfl
  rw [hfc, hnm]
  refine ⟨hpos, ?_, ?_⟩
  · intro hle
    rcases hinv with ⟨hov, hval, _⟩ | ⟨hov, hgt⟩
    · constructor
      · rw [hcnt, hval, if_neg (by simp [hov])]
      · rw [hratio, hval, if_neg (by simp [hov]),
          if_neg (Nat.pos_iff_ne_zero.mp hpos)]
    · exact absurd hle (not_le.mpr hgt)
  · intro hgt
    rcases hinv with ⟨hov, hval, hle⟩ | ⟨hov, hgt'⟩
    · exact absurd hgt (not_lt.mpr hle)
    · exact ⟨by rw [hcnt, if_pos hov], by rw [hratio, if_pos hov]⟩

/-- Witness for C8, at the one-feature one-column collection. -/
theorem unique_count_cap_witness :
    statsColumn ∈ (summarizeCollection statsCollection "stats.zip").columns ∧
    (0 < (summarizeCollection statsCollection "stats.zip").featureCount ∧
      ((distinctKeys (columnValues statsCollection.features
            statsColumn.name)).length ≤ UNIQUE_TRACK_LIMIT →
        statsColumn.uniqueCount =
          some (distinctKeys (columnValues statsCollection.features
            statsColumn.name)).length ∧
        statsColumn.uniqueRatio =
          some (((distinctKeys (columnValues statsCollection.features
              statsColumn.name)).length : ℚ)
            / (summarizeCollection statsCollection "stats.zip").featureCount)) ∧
      (UNIQUE_TRACK_LIMIT <
          (distinctKeys (columnValues statsCollection.features
            statsColumn.name)).length →
        statsColumn.uniqueCount = none ∧ statsColumn.uniqueRatio = none)) :=
  ⟨List.Mem.head _,
    unique_count_cap statsCollection "stats.zip" statsColumn
      (List.Mem.head _)⟩

end Gongmiri
